import Mathlib

/-!
# tpl: template set loader and renderer

A shallow embedding of `tpl.go` (package `tpl`): `removeExtension`, `Load`
and `Templates.Render`, together with models of the library calls they make
(`strings`, `path/filepath` on Unix, `filepath.Walk`, `html/template`,
`bpool`, `net/http`).
-/

set_option autoImplicit false

namespace Tpl

deriving instance DecidableEq for Except

/-! ## Definitions -/

/-! ### `strings` and `removeExtension`

A Go string is represented by a `String`, read as the list of its characters. The
separators and markers the program looks for (`.`, `_`, `/`) are single bytes, so byte
positions and character positions give the same slices. -/

/-- Index of the first occurrence of the byte `c` in `s`, or `-1` when `c` does not
occur: `strings.Index(s, string(c))` for a one-byte separator. -/
def indexByte (c : Char) : List Char → Int
  | [] => -1
  | x :: xs => if x = c then 0 else
      let i := indexByte c xs
      if i ≥ 0 then i + 1 else -1

/-- The call `strings.Index(path, ".")`. -/
def stringsIndexDot (path : String) : Int := indexByte '.' path.data

/-- The call `strings.HasPrefix(s, prefix)`. -/
def HasPrefix (s pre : String) : Bool := pre.data.isPrefixOf s.data

/-- The slice expression `s[:n]`. -/
def slicePrefix (s : String) (n : Nat) : String := ⟨s.data.take n⟩

/-- Source function `removeExtension` (tpl.go, lines 140-146). -/
def removeExtension (path : String) : String :=
  let dot := stringsIndexDot path
  if dot ≥ 0 then slicePrefix path dot.toNat else path

/-! ### `path/filepath` (Unix) -/

/-- Split a path at every separator: `"a/b"` gives `["a", "b"]`, `"/a"` gives `["", "a"]`. -/
def splitSep : List Char → List (List Char)
  | [] => [[]]
  | c :: cs =>
    if c = '/' then [] :: splitSep cs
    else match splitSep cs with
      | [] => [[c]]
      | e :: es => (c :: e) :: es

/-- One step of `filepath.Clean`: the stack of output elements (last element first)
after reading one more path element. -/
def cleanStep (rooted : Bool) (out : List (List Char)) (e : List Char) : List (List Char) :=
  if e = [] ∨ e = ['.'] then out
  else if e = ['.', '.'] then
    match out with
    | [] => if rooted then [] else [e]
    | top :: rest => if top = ['.', '.'] then e :: out else rest
  else e :: out

/-- Join path elements with the separator. -/
def joinSep : List (List Char) → List Char
  | [] => []
  | [e] => e
  | e :: es => e ++ '/' :: joinSep es

/-- The function `filepath.Clean` on a list of bytes. -/
def cleanChars (p : List Char) : List Char :=
  if p = [] then ['.'] else
  let rooted := p.head? = some '/'
  let out := ((splitSep p).foldl (cleanStep rooted) []).reverse
  if rooted then '/' :: joinSep out
  else if out = [] then ['.'] else joinSep out

/-- The function `filepath.Clean`. -/
def Clean (p : String) : String := ⟨cleanChars p.data⟩

/-- The call `filepath.Join(a, b)`: the first non-empty element onwards, joined by the
separator and cleaned; the empty string when both are empty. -/
def Join (a b : String) : String :=
  if a ≠ "" then Clean ⟨a.data ++ '/' :: b.data⟩
  else if b ≠ "" then Clean b
  else ""

/-- Remove trailing separators. -/
def stripTrailingSep (p : List Char) : List Char :=
  (p.reverse.dropWhile (· = '/')).reverse

/-- The part of `p` after its last separator. -/
def lastElem (p : List Char) : List Char :=
  (p.reverse.takeWhile (· ≠ '/')).reverse

/-- The function `filepath.Base`. -/
def Base (path : String) : String :=
  if path = "" then "." else
  let p := lastElem (stripTrailingSep path.data)
  if p = [] then "/" else ⟨p⟩

/-- The loop of `filepath.Rel` that positions both paths at their first differing
elements. Returns what is left of the base from `b0`, what is left of the target from
`t0`, and the base element `base[b0:bi]` at which the loop stopped. -/
def relLoop : Nat → List Char → List Char → List Char × List Char × List Char
  | 0, b, t => (b, t, [])
  | fuel + 1, b, t =>
    if b = [] ∨ t = [] then (b, t, [])
    else
      let be := b.takeWhile (· ≠ '/')
      let te := t.takeWhile (· ≠ '/')
      if te ≠ be then (b, t, be)
      else relLoop fuel ((b.dropWhile (· ≠ '/')).drop 1) ((t.dropWhile (· ≠ '/')).drop 1)

/-- The string `".."` followed by `n` copies of `"/.."`. -/
def dotDots : Nat → List Char
  | 0 => ['.', '.']
  | n + 1 => dotDots n ++ ['/', '.', '.']

/-- The function `filepath.Rel(basepath, targpath)`; the error is its message. -/
def Rel (basepath targpath : String) : Except String String :=
  let base := cleanChars basepath.data
  let targ := cleanChars targpath.data
  if targ = base then .ok "."
  else
    let base := if base = ['.'] then [] else base
    let baseSlashed := base.head? = some '/'
    let targSlashed := targ.head? = some '/'
    if baseSlashed ≠ targSlashed then
      .error ("Rel: can't make " ++ targpath ++ " relative to " ++ basepath)
    else
      match relLoop (base.length + 1) base targ with
      | (brest, trest, be) =>
        if be = ['.', '.'] then
          .error ("Rel: can't make " ++ targpath ++ " relative to " ++ basepath)
        else if brest ≠ [] then
          let seps := brest.count '/'
          if trest ≠ [] then .ok ⟨dotDots seps ++ '/' :: trest⟩
          else .ok ⟨dotDots seps⟩
        else .ok ⟨trest⟩

/-! ### File system and `filepath.Walk` -/

/-- Result of calling a Go function that reports failure through an `error` value and
may also panic. -/
inductive Outcome (σ : Type) where
  /-- Returned a nil error, leaving the state `s`. -/
  | ok (s : σ)
  /-- Returned a non-nil error with this message. -/
  | error (msg : String)
  /-- Did not return: a run-time panic. -/
  | panic
  deriving DecidableEq

/-- The part of `os.FileInfo` that the program inspects. -/
structure FileInfo where
  /-- Result of `IsDir()`. -/
  isDir : Bool
  deriving DecidableEq

mutual
/-- What `os.Lstat` and the directory listing show at a path. -/
inductive Node where
  /-- An entry that is not a directory. -/
  | file : Node
  /-- A directory: the error of listing it (`none` when it can be listed) and its entries,
  in the order in which `filepath.Walk` visits them (lexical order of the names). -/
  | dir : Option String → Entries → Node
  /-- An entry on which `os.Lstat` fails with the given error. -/
  | noStat : String → Node
/-- The entries of a directory: name and node. -/
inductive Entries where
  | nil : Entries
  | cons : String → Node → Entries → Entries
end

/-- The file system as the program sees it. -/
structure FileSystem where
  /-- The call `ioutil.ReadFile(path)`: the content, or the error message. -/
  readFile : String → Except String String
  /-- The tree that `filepath.Walk` finds at a root path. -/
  tree : String → Node

/-- Type of the callback of `filepath.Walk`, `func(path, info, err) error`, acting on the
state `σ` that the Go closure captures. `info` is `none` for a nil `os.FileInfo`, `err` is
`none` for a nil error. -/
abbrev WalkFunc (σ : Type) := String → Option FileInfo → Option String → σ → Outcome σ

mutual
/-- The recursion of `filepath.Walk` below an entry. For a directory the callback gets the
listing error; when the callback returns nil the entries are walked unless the listing
failed. For an entry that cannot be stat-ed the callback gets a nil `FileInfo` and the
error. The callbacks of this program never return `filepath.SkipDir`, so it has no case. -/
def walk {σ : Type} (fn : WalkFunc σ) (path : String) : Node → σ → Outcome σ
  | .file, s => fn path (some ⟨false⟩) none s
  | .noStat e, s => fn path none (some e) s
  | .dir lerr ents, s =>
    match fn path (some ⟨true⟩) lerr s with
    | .ok s1 => if lerr.isSome then .ok s1 else walkEntries fn path ents s1
    | .error e => .error e
    | .panic => .panic
/-- The loop of `filepath.Walk` over the names of a directory. -/
def walkEntries {σ : Type} (fn : WalkFunc σ) (path : String) : Entries → σ → Outcome σ
  | .nil, s => .ok s
  | .cons name n rest, s =>
    match walk fn (Join path name) n s with
    | .ok s1 => walkEntries fn path rest s1
    | .error e => .error e
    | .panic => .panic
end

/-- The function `filepath.Walk(root, fn)`. -/
def Walk {σ : Type} (fs : FileSystem) (root : String) (fn : WalkFunc σ) (s : σ) : Outcome σ :=
  walk fn root (fs.tree root) s

/-! ### Go maps with string keys -/

/-- The lookup `m[k]` with its `ok` flag. -/
def mapGet {α : Type} : List (String × α) → String → Option α
  | [], _ => none
  | (k1, v) :: m, k => if k = k1 then some v else mapGet m k

/-- The assignment `m[k] = v`: an existing entry for `k` is replaced. -/
def mapSet {α : Type} (m : List (String × α)) (k : String) (v : α) : List (String × α) :=
  (k, v) :: m.filter (fun e => e.1 ≠ k)

/-! ### `html/template`

The template engine is outside the program. It is represented by the type `T` of parse
trees, the type `F` of function maps, the type `D` of data values, a parser, the test for
an empty parse tree and an executor.

Templates that are associated with one another share a name space, which `Parse` changes
in place and `Clone` copies. So name spaces live in a heap, and a value of type
`*template.Template` is a reference into that heap. -/

/-- The template engine. -/
structure Engine (F T D : Type) where
  /-- The function map of a template that was given none. -/
  noFuncs : F
  /-- The parser `parse.Parse` with the function map bound: the parse tree of the text
  outside definitions, which goes under the name of the template that is parsed, and the
  parse trees of the definitions (`define`, `block`) nested in the text, each with its
  name; or the error message. -/
  parse : F → String → Except String (T × List (String × T))
  /-- The test `parse.IsEmptyTree`: the tree has no content, as for an empty text or one
  of white space. -/
  isEmpty : T → Bool
  /-- Execute a tree against the set of its associated templates and the data: the bytes
  written to the writer, and the error (`none` on success). -/
  exec : T → List (String × T) → D → List UInt8 × Option String

/-- The template a `*template.Template` stands for at one moment: its name, the function
map and the parse trees of the templates associated with it. A template that has no parse
tree is not in `set`. -/
structure Template (F T : Type) where
  name : String
  funcs : F
  set : List (String × T)
  deriving DecidableEq

/-- The type `Templates`: a map of all parsed templates. Each pointer of the map is given
by the template it stands for when `Load` returns. -/
abbrev Templates (F T : Type) := List (String × Template F T)

/-- A name space: the function map and the parse trees of the templates that are
associated with one another. -/
structure NameSpace (F T : Type) where
  funcs : F
  trees : List (String × T)
  deriving DecidableEq

/-- The heap of name spaces; the address of a name space is its index. -/
abbrev Heap (F T : Type) := List (NameSpace F T)

/-- A value of type `*template.Template`: the address of its name space, its name, and
whether it is the template that the name space holds under that name. A template that is
not, because `New` has reset it, has no parse tree of its own. -/
structure TemplateRef where
  ns : Nat
  name : String
  member : Bool
  deriving DecidableEq

variable {F T D : Type}

/-- The function map of the name space at an address. -/
def funcsAt (E : Engine F T D) (heap : Heap F T) (a : Nat) : F :=
  match heap[a]? with
  | some n => n.funcs
  | none => E.noFuncs

/-- The parse trees of the name space at an address. -/
def treesAt (heap : Heap F T) (a : Nat) : List (String × T) :=
  match heap[a]? with
  | some n => n.trees
  | none => []

/-- The template a reference stands for in a heap. -/
def TemplateRef.deref (E : Engine F T D) (heap : Heap F T) (t : TemplateRef) : Template F T :=
  ⟨t.name, funcsAt E heap t.ns, treesAt heap t.ns⟩

/-- The method `Lookup` on the set of a template. -/
def Template.Lookup (t : Template F T) (name : String) : Option T := mapGet t.set name

/-- Adding one parse tree to a name space (`AddParseTree`, `associate`): a template of
that name that exists is not replaced by an empty tree; otherwise the tree becomes the
template of that name. -/
def addTree (E : Engine F T D) (trees : List (String × T)) (name : String) (tree : T) :
    List (String × T) :=
  if (mapGet trees name).isSome ∧ E.isEmpty tree = true then trees
  else mapSet trees name tree

/-- Adding the parse trees of nested definitions. -/
def addTrees (E : Engine F T D) (trees : List (String × T)) (defs : List (String × T)) :
    List (String × T) :=
  defs.foldl (fun acc d => addTree E acc d.1 d.2) trees

/-- The call `template.New(name).Funcs(funcs)`: a template in a new name space. -/
def templateNew (heap : Heap F T) (name : String) (funcs : F) : Heap F T × TemplateRef :=
  (heap ++ [⟨funcs, []⟩], ⟨heap.length, name, true⟩)

/-- The method `New`: a new template of the given name in the name space of `t`. A
template of that name that exists is reset and disassociated; when that template is `t`
itself, `t` afterwards is an empty template in a new name space, without function map,
of which it is not a member. Returns the heap, `t` as it is after the call, and the new
template. -/
def TemplateRef.New (E : Engine F T D) (heap : Heap F T) (t : TemplateRef) (name : String) :
    Heap F T × TemplateRef × TemplateRef :=
  if t.member = true ∧ name = t.name then
    (heap ++ [⟨E.noFuncs, []⟩], ⟨heap.length, t.name, false⟩, ⟨t.ns, name, true⟩)
  else (heap, t, ⟨t.ns, name, true⟩)

/-- The method `Parse`: the trees of the nested definitions and the tree of the text
itself, under the name of `t`, are added to the name space of `t`. -/
def TemplateRef.Parse (E : Engine F T D) (heap : Heap F T) (t : TemplateRef) (text : String) :
    Except String (Heap F T) :=
  match E.parse (funcsAt E heap t.ns) text with
  | .error e => .error e
  | .ok (top, defs) =>
    .ok (heap.set t.ns
      ⟨funcsAt E heap t.ns, addTree E (addTrees E (treesAt heap t.ns) defs) t.name top⟩)

/-- The parse trees that a clone of `t` starts with: those of the name space of `t`,
where the template of `t`'s own name has the parse tree of `t`, which is none when `t` is
not a member. -/
def cloneTrees (heap : Heap F T) (t : TemplateRef) : List (String × T) :=
  if t.member = true then treesAt heap t.ns
  else (treesAt heap t.ns).filter (fun e => e.1 ≠ t.name)

/-- The method `Clone`: a template of the same name in a new name space that holds
copies of the associated templates. It fails only after a template of the name space has
been executed, which `Load` never does. -/
def TemplateRef.Clone (E : Engine F T D) (heap : Heap F T) (t : TemplateRef) :
    Except String (Heap F T × TemplateRef) :=
  .ok (heap ++ [⟨funcsAt E heap t.ns, cloneTrees heap t⟩], ⟨heap.length, t.name, true⟩)

/-! ### `Load` -/

/-- What a call of `Load` does: it returns its two results, or it panics. -/
inductive LoadResult (F T : Type) where
  /-- The pair `(Templates, error)`; `none` stands for `nil`. -/
  | returned (tpls : Option (Templates F T)) (err : Option String)
  | panicked
  deriving DecidableEq

/-- The callback of the walk over `partialDir` (tpl.go, lines 65-90). The state is the
heap and the variable `layoutTpl`. -/
def partialFn (E : Engine F T D) (fs : FileSystem) (dir : String) :
    WalkFunc (Heap F T × TemplateRef) :=
  fun path info _err s =>
  match info with
  | none => .panic
  | some info =>
    if info.isDir then .ok s
    else if !HasPrefix (Base path) "_" then .ok s
    else
      match Rel dir path with
      | .error err => .error ("Could not create relative path: " ++ err)
      | .ok rel =>
        let name := removeExtension (Base rel)
        match fs.readFile path with
        | .error err => .error ("Failed to load partial (" ++ rel ++ "): " ++ err)
        | .ok b =>
          match s.2.New E s.1 name with
          | (heap1, layoutTpl, t) =>
            match t.Parse E heap1 b with
            | .error err => .error ("Failed to parse partial: (" ++ rel ++ "): " ++ err)
            | .ok heap2 => .ok (heap2, layoutTpl)

/-- The callback of the walk over `dir` (tpl.go, lines 96-131). The state is the heap and
the map `tpls`, which holds references. -/
def pageFn (E : Engine F T D) (fs : FileSystem) (dir layout : String)
    (layoutTpl : TemplateRef) : WalkFunc (Heap F T × List (String × TemplateRef)) :=
  fun path info err s =>
  match info with
  | none => .panic
  | some info =>
    if info.isDir then .ok s
    else if path = Join dir layout ∨ HasPrefix (Base path) "_" then .ok s
    else
      match err with
      | some err => .error ("Could not walk directory: " ++ err)
      | none =>
        match Rel dir path with
        | .error err => .error ("Could not create relative path: " ++ err)
        | .ok rel =>
          let name := removeExtension rel
          match fs.readFile path with
          | .error err => .error ("Failed to load template (" ++ rel ++ "): " ++ err)
          | .ok b =>
            match layoutTpl.Clone E s.1 with
            | .error err => .error ("Failed to clone layout: " ++ err)
            | .ok (heap1, clone) =>
              match clone.New E heap1 "yield" with
              | (heap2, _, t) =>
                match t.Parse E heap2 b with
                | .error err => .error ("Failed to parse template (" ++ rel ++ "): " ++ err)
                | .ok heap3 => .ok (heap3, mapSet s.2 name t)

/-- Source function `Load` (tpl.go, lines 52-138). -/
def Load (E : Engine F T D) (fs : FileSystem) (dir partialDir layout : String) (funcs : F) :
    LoadResult F T :=
  match fs.readFile (Join dir layout) with
  | .error err => .returned none (some ("Could not load layout: " ++ err))
  | .ok b =>
    match templateNew [] "" funcs with
    | (heap0, layoutTpl) =>
      match layoutTpl.Parse E heap0 b with
      | .error err => .returned none (some ("Failed to parse layout: " ++ err))
      | .ok heap1 =>
        match Walk fs partialDir (partialFn E fs dir) (heap1, layoutTpl) with
        | .panic => .panicked
        | .error err => .returned none (some ("Failed to load partials: " ++ err))
        | .ok (heap2, layoutTpl) =>
          match Walk fs dir (pageFn E fs dir layout layoutTpl) (heap2, []) with
          | .panic => .panicked
          | .error err => .returned none (some ("Failed to load templates: " ++ err))
          | .ok (heap3, tpls) =>
            .returned (some (tpls.map (fun e => (e.1, e.2.deref E heap3)))) none

/-! ### `bpool`, `net/http` and `Render` -/

/-- A byte sequence. -/
abbrev Bytes := List UInt8

/-- The buffers waiting in a `bpool.BufferPool`, oldest first. -/
abbrev BufferPool := List Bytes

/-- Size of the pool: `bufPool = bpool.NewBufferPool(10)`. -/
def bufPoolSize : Nat := 10

/-- The method `Get`: the oldest waiting buffer, or a new empty one. -/
def BufferPool.Get : BufferPool → Bytes × BufferPool
  | [] => ([], [])
  | b :: rest => (b, rest)

/-- The method `Reset` of `bytes.Buffer`: the buffer becomes empty. -/
def bufReset (_b : Bytes) : Bytes := []

/-- The method `Put`: the buffer is reset and kept unless the pool is full. -/
def BufferPool.Put (bp : BufferPool) (b : Bytes) : BufferPool :=
  if bp.length < bufPoolSize then bp ++ [bufReset b] else bp

/-- A call made on the `http.ResponseWriter`. -/
inductive SinkOp where
  /-- The call `w.Header().Set(key, value)`. -/
  | setHeader (key value : String)
  /-- The call `w.WriteHeader(code)`. -/
  | writeHeader (code : Nat)
  /-- The call `w.Write(p)`. -/
  | write (p : Bytes)
  deriving DecidableEq

/-- The output sink: the calls made on it so far, and how it answers a `Write` of `p`
after those calls: the number of bytes accepted, at most `len(p)`, and the error. -/
structure ResponseWriter where
  calls : List SinkOp
  accept : List SinkOp → (p : Bytes) → Fin (p.length + 1) × Option String

/-- The call `w.Header().Set(key, value)`. -/
def ResponseWriter.SetHeader (w : ResponseWriter) (key value : String) : ResponseWriter :=
  { w with calls := w.calls ++ [.setHeader key value] }

/-- The call `w.WriteHeader(code)`. -/
def ResponseWriter.WriteHeader (w : ResponseWriter) (code : Nat) : ResponseWriter :=
  { w with calls := w.calls ++ [.writeHeader code] }

/-- The call `w.Write(p)`: the sink after the call, the count and the error. -/
def ResponseWriter.Write (w : ResponseWriter) (p : Bytes) : ResponseWriter × Nat × Option String :=
  ({ w with calls := w.calls ++ [.write p] }, (w.accept w.calls p).1.val, (w.accept w.calls p).2)

/-- The value `http.StatusOK`. -/
def StatusOK : Nat := 200

/-- The call `io.Copy(w, buf)` for a `*bytes.Buffer`, which is `buf.WriteTo(w)`: one
`Write` of the whole content when there is any. Returns the sink, what is left in the
buffer, and the error. -/
def ioCopy (w : ResponseWriter) (buf : Bytes) : ResponseWriter × Bytes × Option String :=
  if buf.length > 0 then
    match w.Write buf with
    | (w1, m, some e) => (w1, buf.drop m, some e)
    | (w1, m, none) =>
      if m ≠ buf.length then (w1, buf.drop m, some "short write") else (w1, [], none)
  else (w, [], none)

/-- The verb `%q` of `fmt` for a string without characters that need escaping: the
string in double quotes. -/
def goQuote (s : String) : String := ⟨Char.ofNat 34 :: s.data ++ [Char.ofNat 34]⟩

/-- The method `ExecuteTemplate(wr, name, data)`: the template of that name in the set is
executed into the buffer; an error when the set has no such template. -/
def Template.ExecuteTemplate (E : Engine F T D) (t : Template F T) (buf : Bytes)
    (name : String) (data : D) : Bytes × Option String :=
  match t.Lookup name with
  | none => (buf, some ("html/template: " ++ goQuote name ++ " is undefined"))
  | some body => (buf ++ (E.exec body t.set data).1, (E.exec body t.set data).2)

/-- What `Render` leaves behind: the returned error, the sink and the buffer pool. -/
structure RenderResult where
  err : Option String
  w : ResponseWriter
  pool : BufferPool

/-- Source method `Templates.Render` (tpl.go, lines 30-48). -/
def Render (E : Engine F T D) (t : Templates F T) (bufPool : BufferPool) (w : ResponseWriter)
    (name : String) (data : D) : RenderResult :=
  match bufPool.Get with
  | (buf, pool1) =>
    match mapGet t name with
    | none => ⟨some ("Template named: " ++ name ++ " does not exist"), w, pool1.Put buf⟩
    | some tmpl =>
      match tmpl.ExecuteTemplate E buf "" data with
      | (buf1, some err) => ⟨some err, w, pool1.Put buf1⟩
      | (buf1, none) =>
        match ioCopy ((w.SetHeader "Content-Type" "text/html").WriteHeader StatusOK) buf1 with
        | (w1, buf2, err) => ⟨err, w1, pool1.Put buf2⟩

/-! ### The visits of a walk, and the entries the two walks of `Load` write -/

/-- One call of the walk callback: its three arguments. -/
structure Visit where
  path : String
  info : Option FileInfo
  err : Option String
  deriving DecidableEq

mutual
/-- The callback calls that `filepath.Walk` makes at and below an entry, in order, as
long as the callback returns nil. -/
def visits (path : String) : Node → List Visit
  | .file => [⟨path, some ⟨false⟩, none⟩]
  | .noStat e => [⟨path, none, some e⟩]
  | .dir lerr ents =>
    ⟨path, some ⟨true⟩, lerr⟩ :: (if lerr.isSome then [] else visitsEntries path ents)
/-- The callback calls for the entries of the directory `path`. -/
def visitsEntries (path : String) : Entries → List Visit
  | .nil => []
  | .cons name n rest => visits (Join path name) n ++ visitsEntries path rest
end

/-- Run a callback over a list of visits, stopping at the first error or panic. -/
def runVisits {σ : Type} (fn : WalkFunc σ) : List Visit → σ → Outcome σ
  | [], s => .ok s
  | v :: vs, s =>
    match fn v.path v.info v.err s with
    | .ok s1 => runVisits fn vs s1
    | .error e => .error e
    | .panic => .panic

mutual
/-- Paths of all non-directory entries of a tree, whether the walk can reach them or not. -/
def filesUnder (path : String) : Node → List String
  | .file => [path]
  | .noStat _ => []
  | .dir _ ents => filesUnderEntries path ents
/-- Paths of all non-directory entries below the entries of `path`. -/
def filesUnderEntries (path : String) : Entries → List String
  | .nil => []
  | .cons name n rest => filesUnder (Join path name) n ++ filesUnderEntries path rest
end

/-! ### Concrete inputs -/

/-- The text of a layout with a nested definition: `yield` is defined as `D`, the text
outside the definition is `L`. -/
def layoutWithYield : String :=
  "\x7b\x7bdefine \x60yield\x60\x7d\x7dD\x7b\x7bend\x7d\x7dL"

/-- An engine whose parse trees are the texts themselves. The text of two opening braces
fails to parse, `layoutWithYield` has its nested definition, and no other text has one. A
tree is empty when it is white space only. Execution writes the bytes of the tree, and
fails on the tree `boom`. -/
def textEngine : Engine Unit String Unit where
  noFuncs := ()
  parse := fun _ s =>
    if s = "\x7b\x7b" then .error "unexpected EOF"
    else if s = layoutWithYield then .ok ("L", [("yield", "D")])
    else .ok (s, [])
  isEmpty := fun s => s.data.all Char.isWhitespace
  exec := fun body _ _ =>
    if body = "boom" then ([], some "execution failed")
    else (body.data.map (fun c => c.toNat.toUInt8), none)

/-- A file system with the layout, two pages and a partial in a subdirectory. -/
def fsSmall : FileSystem where
  readFile := fun p =>
    if p = "tpl/layout.tpl" then .ok "L"
    else if p = "tpl/index.html.tpl" then .ok "I"
    else if p = "tpl/sub/page.tpl" then .ok "P"
    else if p = "tpl/partials/sub/_item.tpl" then .ok "X"
    else .error "no such file"
  tree := fun root =>
    if root = "tpl" then
      .dir none (.cons "index.html.tpl" .file (.cons "layout.tpl" .file
        (.cons "partials" (.dir none (.cons "sub" (.dir none (.cons "_item.tpl" .file .nil)) .nil))
        (.cons "sub" (.dir none (.cons "page.tpl" .file .nil)) .nil))))
    else if root = "tpl/partials" then
      .dir none (.cons "sub" (.dir none (.cons "_item.tpl" .file .nil)) .nil)
    else .noStat "no such file or directory"

/-- A sink that accepts every byte. -/
def sinkAll : ResponseWriter := ⟨[], fun _ p => (Fin.last p.length, none)⟩

/-- A template set with one page whose layout is the text `L`. -/
def tplsOne : Templates Unit String := [("index", ⟨"yield", (), [("yield", "I"), ("", "L")]⟩)]

/-- A template set with one page whose layout fails to execute. -/
def tplsBoom : Templates Unit String := [("index", ⟨"yield", (), [("yield", "I"), ("", "boom")]⟩)]

/-- A callback whose successful calls either leave the map read by `get` alone or write
exactly the entry that `Ent` relates to the visit, and keep the invariant `Inv`. -/
structure KeyedStep {σ α : Type} (fn : WalkFunc σ) (get : σ → String → Option α)
    (Ent : Visit → String → α → Prop) (Inv : σ → Prop) : Prop where
  step : ∀ (v : Visit) (s s1 : σ), Inv s → fn v.path v.info v.err s = .ok s1 →
    Inv s1 ∧ (((∀ k a, ¬ Ent v k a) ∧ ∀ k, get s1 k = get s k) ∨
      ∃ k a, Ent v k a ∧ ∀ k1, get s1 k1 = if k1 = k then some a else get s k1)
  unique : ∀ (v : Visit) (k k1 : String) (a a1 : α), Ent v k a → Ent v k1 a1 → k = k1 ∧ a = a1

/-- The pages walk stores the template `t` under `name` at the visit `v`: `v` is a
non-directory entry that is not skipped, relativising, reading and parsing succeed, and
`t` is named `yield` in a name space that starts with the function map `funcs` and the
trees `base` and to which the trees of the page are added. -/
def PageEnt (E : Engine F T D) (fs : FileSystem) (dir layout : String) (funcs : F)
    (base : List (String × T)) (v : Visit) (name : String) (t : Template F T) : Prop :=
  v.info = some ⟨false⟩ ∧ ¬ (v.path = Join dir layout ∨ HasPrefix (Base v.path) "_" = true) ∧
    ∃ rel b top defs, Rel dir v.path = .ok rel ∧ name = removeExtension rel ∧
      fs.readFile v.path = .ok b ∧ E.parse funcs b = .ok (top, defs) ∧
      t = ⟨"yield", funcs, addTree E (addTrees E base defs) "yield" top⟩

/-- The mapping that `Load` returns on `fsSmall`. -/
def tplsSmall : Templates Unit String :=
  [("sub/page", ⟨"yield", (), [("yield", "P"), ("_item", "X"), ("", "L")]⟩),
    ("index", ⟨"yield", (), [("yield", "I"), ("_item", "X"), ("", "L")]⟩)]

/-- A file system whose page lies below a directory with a dot in its name. -/
def fsDotted : FileSystem where
  readFile := fun p =>
    if p = "tpl/layout.tpl" then .ok "L"
    else if p = "tpl/v1.0/page.tpl" then .ok "P"
    else .error "no such file"
  tree := fun root =>
    if root = "tpl" then
      .dir none (.cons "layout.tpl" .file (.cons "v1.0" (.dir none (.cons "page.tpl" .file .nil)) .nil))
    else if root = "parts" then .dir none .nil
    else .noStat "no such file or directory"

/-- A file system in which the directory `tpl/secret` and the partials root `parts`
exist but cannot be listed. -/
def fsLocked : FileSystem where
  readFile := fun p =>
    if p = "tpl/layout.tpl" then .ok "L"
    else if p = "tpl/index.tpl" then .ok "I"
    else if p = "tpl/secret/page.tpl" then .ok "S"
    else if p = "parts/_nav.tpl" then .ok "N"
    else .error "no such file"
  tree := fun root =>
    if root = "tpl" then
      .dir none (.cons "index.tpl" .file (.cons "layout.tpl" .file
        (.cons "secret" (.dir (some "permission denied") (.cons "page.tpl" .file .nil)) .nil)))
    else if root = "parts" then .dir (some "permission denied") (.cons "_nav.tpl" .file .nil)
    else .noStat "no such file or directory"

/-- A file system in which the entry `tpl/gone.tpl` is listed but cannot be stat-ed. -/
def fsVanished : FileSystem where
  readFile := fun p => if p = "tpl/layout.tpl" then .ok "L" else .error "no such file"
  tree := fun root =>
    if root = "tpl" then
      .dir none (.cons "gone.tpl" (.noStat "no such file or directory")
        (.cons "layout.tpl" .file .nil))
    else .dir none .nil

mutual
/-- Every directory of the tree can be listed. -/
def Listable : Node → Prop
  | .file => True
  | .noStat _ => True
  | .dir lerr ents => lerr = none ∧ ListableEntries ents
/-- Every directory below the entries can be listed. -/
def ListableEntries : Entries → Prop
  | .nil => True
  | .cons _ n rest => Listable n ∧ ListableEntries rest
end

/-- A file system whose layout defines `yield` itself and has an empty page. -/
def fsDefault : FileSystem where
  readFile := fun p =>
    if p = "tpl/layout.tpl" then .ok layoutWithYield
    else if p = "tpl/empty.tpl" then .ok ""
    else if p = "tpl/index.tpl" then .ok "I"
    else .error "no such file"
  tree := fun root =>
    if root = "tpl" then
      .dir none (.cons "empty.tpl" .file (.cons "index.tpl" .file (.cons "layout.tpl" .file .nil)))
    else if root = "parts" then .dir none .nil
    else .noStat "no such file or directory"

/-- The list `l` ends with the path element `e`: `l` is `e` itself, or `e` preceded by a
separator. -/
def EndsWithElem (e l : List Char) : Prop :=
  ∃ y, l = y ++ e ∧ (y = [] ∨ ∃ d, y = d ++ ['/'])

/-! ## Theorems -/

/-! ### `removeExtension` -/

theorem indexByte_spec (c : Char) (l : List Char) :
    (indexByte c l = -1 ∧ c ∉ l) ∨
      (∃ pre post, l = pre ++ c :: post ∧ c ∉ pre ∧ indexByte c l = (pre.length : Int)) := by
  induction l with
  | nil => left; simp [indexByte]
  | cons x xs ih =>
    by_cases hx : x = c
    · right
      refine ⟨[], xs, by simp [hx], by simp, by simp [indexByte, hx]⟩
    · rcases ih with ⟨h1, h2⟩ | ⟨pre, post, h1, h2, h3⟩
      · left
        refine ⟨by simp [indexByte, hx, h1], ?_⟩
        simp only [List.mem_cons, not_or]
        exact ⟨fun h => hx h.symm, h2⟩
      · right
        refine ⟨x :: pre, post, by simp [h1], ?_, ?_⟩
        · simp only [List.mem_cons, not_or]
          exact ⟨fun h => hx h.symm, h2⟩
        · simp only [indexByte, hx, if_false, h3, List.length_cons]
          have : (0 : Int) ≤ (pre.length : Int) := Int.natCast_nonneg _
          simp only [ge_iff_le, this, if_true]
          push_cast
          ring

theorem before_sep_unique (c : Char) :
    ∀ (p1 p2 q1 q2 : List Char), p1 ++ c :: q1 = p2 ++ c :: q2 → c ∉ p1 → c ∉ p2 → p1 = p2
  | [], [], _, _, _, _, _ => rfl
  | [], y :: p2, _, _, h, _, h2 => by
    simp only [List.nil_append, List.cons_append, List.cons.injEq] at h
    exact absurd (by simp [h.1]) h2
  | x :: p1, [], _, _, h, h1, _ => by
    simp only [List.nil_append, List.cons_append, List.cons.injEq] at h
    exact absurd (by simp [h.1]) h1
  | x :: p1, y :: p2, q1, q2, h, h1, h2 => by
    simp only [List.cons_append, List.cons.injEq] at h
    simp only [List.mem_cons, not_or] at h1 h2
    rw [h.1, before_sep_unique c p1 p2 q1 q2 h.2 h1.2 h2.2]

theorem removeExtension_of_no_dot (path : String) (h : '.' ∉ path.data) :
    removeExtension path = path := by
  rcases indexByte_spec '.' path.data with ⟨h1, _⟩ | ⟨pre, post, h1, _, _⟩
  · simp [removeExtension, stringsIndexDot, h1]
  · exact absurd (by rw [h1]; simp) h

theorem removeExtension_of_dot (path : String) (pre post : List Char)
    (h : path.data = pre ++ '.' :: post) (hpre : '.' ∉ pre) :
    removeExtension path = ⟨pre⟩ := by
  rcases indexByte_spec '.' path.data with ⟨_, h2⟩ | ⟨pre1, post1, h1, h2, h3⟩
  · exact absurd (by rw [h]; simp) h2
  · have hp : pre1 = pre := before_sep_unique '.' pre1 pre post1 post (h1.symm.trans h) h2 hpre
    subst hp
    have h0 : (0 : Int) ≤ (pre1.length : Int) := Int.natCast_nonneg _
    rw [removeExtension, stringsIndexDot, h3]
    simp [slicePrefix, h0, h]

/-- Claim C6: `removeExtension path` is the prefix of `path` that ends just before the first
`.` (a prefix without `.` that is followed by `.` in `path`), and is `path` itself when
`path` contains no `.`; `sub/dir/page.html.tpl` gives `sub/dir/page`, also as the name
computed for that page file below `tpl`, and `page.v2.tpl` gives `page`. -/
theorem removeExtension_first_dot (path : String) :
    (∃ pre : List Char, removeExtension path = ⟨pre⟩ ∧ '.' ∉ pre ∧
      (pre = path.data ∨ ∃ post, path.data = pre ++ '.' :: post)) ∧
    removeExtension "sub/dir/page.html.tpl" = "sub/dir/page" ∧
    (Rel "tpl" (Join (Join (Join "tpl" "sub") "dir") "page.html.tpl")).map removeExtension
      = .ok "sub/dir/page" ∧
    removeExtension "page.v2.tpl" = "page" := by
  refine ⟨?_, by decide, by decide, by decide⟩
  rcases indexByte_spec '.' path.data with ⟨_, h2⟩ | ⟨pre, post, h1, h2, _⟩
  · exact ⟨path.data, removeExtension_of_no_dot path h2, h2, Or.inl rfl⟩
  · exact ⟨pre, removeExtension_of_dot path pre post h1 h2, h2, Or.inr ⟨post, h1⟩⟩

/-! ### `Render` -/

theorem BufferPool.Get_empty (pool : BufferPool) (h : ∀ buf ∈ pool, buf = []) :
    pool.Get.1 = [] := by
  cases pool with
  | nil => rfl
  | cons b rest => exact h b (by simp)

theorem ExecuteTemplate_err_indep (E : Engine F T D) (tmpl : Template F T) (buf1 buf2 : Bytes)
    (name : String) (data : D) :
    (tmpl.ExecuteTemplate E buf1 name data).2 = (tmpl.ExecuteTemplate E buf2 name data).2 := by
  unfold Template.ExecuteTemplate
  cases tmpl.Lookup name <;> rfl

/-- Claim C4: when `name` is a key of `t` and executing the root template (named `""`) of
the stored template succeeds with output `b`, `Render`, starting from a pool whose
buffers are empty, sets `Content-Type` to `text/html`, then writes status 200, then
hands exactly the bytes `b` to the sink (one `Write` of `b`, none when `b` is empty), and
returns the error of the copy step, which is nil when the sink accepts all bytes. -/
theorem Render_success (E : Engine F T D) (t : Templates F T) (pool : BufferPool)
    (w : ResponseWriter) (name : String) (data : D) (tmpl : Template F T) (root : T) (b : Bytes)
    (hpool : ∀ buf ∈ pool, buf = [])
    (hname : mapGet t name = some tmpl)
    (hroot : tmpl.Lookup "" = some root)
    (hexec : E.exec root tmpl.set data = (b, none)) :
    (Render E t pool w name data).w.calls =
        w.calls ++ [.setHeader "Content-Type" "text/html", .writeHeader 200] ++
          (if b = [] then [] else [.write b]) ∧
      (Render E t pool w name data).err =
        (if b = [] then none
         else match w.accept (w.calls ++ [.setHeader "Content-Type" "text/html", .writeHeader 200]) b with
          | (_, some e) => some e
          | (m, none) => if m.val ≠ b.length then some "short write" else none) ∧
      (w.accept (w.calls ++ [.setHeader "Content-Type" "text/html", .writeHeader 200]) b
          = (Fin.last b.length, none) → (Render E t pool w name data).err = none) := by
  have hbuf : pool.Get = ([], pool.Get.2) := by
    have := BufferPool.Get_empty pool hpool
    rw [← this]
  have hex : tmpl.ExecuteTemplate E [] "" data = (b, none) := by
    simp [Template.ExecuteTemplate, hroot, hexec]
  have hR : Render E t pool w name data =
      ⟨(ioCopy ((w.SetHeader "Content-Type" "text/html").WriteHeader StatusOK) b).2.2,
       (ioCopy ((w.SetHeader "Content-Type" "text/html").WriteHeader StatusOK) b).1,
       pool.Get.2.Put (ioCopy ((w.SetHeader "Content-Type" "text/html").WriteHeader StatusOK) b).2.1⟩ := by
    unfold Render
    rw [hbuf]
    simp only [hname, hex]
  rw [hR]
  by_cases hb : b = []
  · subst hb
    simp [ioCopy, ResponseWriter.SetHeader, ResponseWriter.WriteHeader, StatusOK]
  · have hlen : b.length > 0 := List.length_pos.mpr hb
    simp only [ioCopy, hlen, if_true, ResponseWriter.Write, ResponseWriter.SetHeader,
      ResponseWriter.WriteHeader, StatusOK, hb, if_false, List.append_assoc, List.singleton_append]
    generalize hacc : w.accept (w.calls ++ [SinkOp.setHeader "Content-Type" "text/html",
      SinkOp.writeHeader 200]) b = acc
    rcases acc with ⟨m, e⟩
    cases e with
    | some e => simp
    | none =>
      by_cases hm : m.val = b.length
      · simp [hm]
      · simp only [ne_eq, hm, not_false_eq_true, if_true, true_and, Prod.mk.injEq, and_true]
        intro hlast
        exact absurd (by rw [hlast]; rfl) hm

/-- Claim C5: when `name` is not a key of `t`, or executing the stored template fails,
`Render` returns a non-nil error, for the missing name the error
`Template named: <name> does not exist`, and the sink is left as it was: no header is
set, no status and no body byte is written. -/
theorem Render_failure (E : Engine F T D) (t : Templates F T) (pool : BufferPool)
    (w : ResponseWriter) (name : String) (data : D)
    (h : mapGet t name = none ∨
      ∃ tmpl, mapGet t name = some tmpl ∧ (tmpl.ExecuteTemplate E [] "" data).2 ≠ none) :
    (Render E t pool w name data).err ≠ none ∧
      (Render E t pool w name data).w = w ∧
      (mapGet t name = none →
        (Render E t pool w name data).err =
          some ("Template named: " ++ name ++ " does not exist")) := by
  rcases h with h | ⟨tmpl, h1, h2⟩
  · simp [Render, h]
  · have h3 := ExecuteTemplate_err_indep E tmpl pool.Get.1 [] "" data
    generalize hx : tmpl.ExecuteTemplate E pool.Get.1 "" data = x at h3
    rcases x with ⟨buf1, e⟩
    cases e with
    | none => exact absurd h3.symm h2
    | some e =>
      have hR : Render E t pool w name data = ⟨some e, w, pool.Get.2.Put buf1⟩ := by
        unfold Render
        simp only [h1, hx]
      simp [hR, h1]

theorem Render_success_witness :
    (Render textEngine tplsOne [[]] sinkAll "index" ()).w.calls =
        [.setHeader "Content-Type" "text/html", .writeHeader 200, .write [76]] ∧
      (Render textEngine tplsOne [[]] sinkAll "index" ()).err = none := by
  have h := Render_success textEngine tplsOne [[]] sinkAll "index" ()
    ⟨"yield", (), [("yield", "I"), ("", "L")]⟩ "L" [76] (by simp) (by decide) (by decide)
    (by decide)
  exact ⟨h.1, h.2.2 rfl⟩

theorem Render_failure_witness :
    (Render textEngine tplsBoom [] sinkAll "index" ()).err ≠ none ∧
      (Render textEngine tplsBoom [] sinkAll "index" ()).w = sinkAll ∧
      (Render textEngine tplsBoom [] sinkAll "other" ()).err =
        some "Template named: other does not exist" ∧
      (Render textEngine tplsBoom [] sinkAll "other" ()).w = sinkAll := by
  have h1 := Render_failure textEngine tplsBoom [] sinkAll "index" ()
    (Or.inr ⟨⟨"yield", (), [("yield", "I"), ("", "boom")]⟩, by decide, by decide⟩)
  have h2 := Render_failure textEngine tplsBoom [] sinkAll "other" () (Or.inl (by decide))
  exact ⟨h1.1, h1.2.1, h2.2.2 (by decide), h2.2.1⟩

/-- The buffers of the pool stay empty across a call of `Render`. -/
theorem Render_pool_empty (E : Engine F T D) (t : Templates F T) (pool : BufferPool)
    (w : ResponseWriter) (name : String) (data : D) (hpool : ∀ buf ∈ pool, buf = []) :
    ∀ buf ∈ (Render E t pool w name data).pool, buf = [] := by
  have hput : ∀ (bp : BufferPool) (b : Bytes), (∀ buf ∈ bp, buf = []) →
      ∀ buf ∈ bp.Put b, buf = [] := by
    intro bp b hbp buf hbuf
    unfold BufferPool.Put at hbuf
    split at hbuf
    · rcases List.mem_append.mp hbuf with h | h
      · exact hbp buf h
      · simpa [bufReset] using h
    · exact hbp buf hbuf
  have hget : ∀ buf ∈ pool.Get.2, buf = [] := by
    intro buf hbuf
    cases pool with
    | nil => simp [BufferPool.Get] at hbuf
    | cons b rest => exact hpool buf (List.mem_cons_of_mem _ hbuf)
  unfold Render
  split
  next buf pool1 hg =>
    have hp1 : ∀ buf ∈ pool1, buf = [] := by
      have : pool1 = pool.Get.2 := by rw [hg]
      rw [this]
      exact hget
    split
    · exact hput _ _ hp1
    · split
      · exact hput _ _ hp1
      · split
        exact hput _ _ hp1

/-! ### `path/filepath` on sample paths -/

/-- The path functions on sample inputs. -/
theorem filepath_samples :
    Clean "a/b/../c/./d//" = "a/c/d" ∧ Clean "../../a" = "../../a" ∧ Clean "/../a" = "/a" ∧
      Clean "" = "." ∧ Clean "/" = "/" ∧ Clean "a/.." = "." ∧
      Join "tpl" "layout.tpl" = "tpl/layout.tpl" ∧ Join "tpl/" "layout.tpl" = "tpl/layout.tpl" ∧
      Join "." "a" = "a" ∧ Join "_a.tpl" "" = "_a.tpl" ∧ Join "" "" = "" ∧
      Base "tpl/parts/_x.tpl" = "_x.tpl" ∧ Base "" = "." ∧ Base "///" = "/" ∧
      Base "a/b/" = "b" ∧
      Rel "a/b" "a/b/c/d" = .ok "c/d" ∧ Rel "a/b" "a/b/../c" = .ok "../c" ∧
      Rel "a/b/c" "a/c/d" = .ok "../../c/d" ∧ Rel "a/b/c/d" "a/b" = .ok "../.." ∧
      Rel "ab/cd" "ab/cde" = .ok "../cde" ∧ Rel "/a/b/c" "/a/d" = .ok "../../d" ∧
      Rel "/" "/a" = .ok "a" ∧ Rel "." "a/b" = .ok "a/b" ∧ Rel "." ".." = .ok ".." ∧
      Rel "a/b/." "a/b" = .ok "." ∧
      (Rel ".." ".").toOption = none ∧ (Rel ".." "a").toOption = none ∧
      (Rel "/a" "b").toOption = none ∧ (Rel "a" "/a").toOption = none := by
  decide

/-! ### The walk as a run over its visits -/

theorem runVisits_append {σ : Type} (fn : WalkFunc σ) (vs ws : List Visit) (s : σ) :
    runVisits fn (vs ++ ws) s =
      match runVisits fn vs s with
      | .ok s1 => runVisits fn ws s1
      | .error e => .error e
      | .panic => .panic := by
  induction vs generalizing s with
  | nil => rfl
  | cons v vs ih =>
    simp only [List.cons_append, runVisits]
    cases fn v.path v.info v.err s with
    | ok s1 => exact ih s1
    | error e => rfl
    | panic => rfl

mutual
theorem walk_eq_runVisits {σ : Type} (fn : WalkFunc σ) (path : String) :
    ∀ (n : Node) (s : σ), walk fn path n s = runVisits fn (visits path n) s
  | .file, s => by
    simp only [walk, visits, runVisits]
    cases fn path (some ⟨false⟩) none s <;> rfl
  | .noStat e, s => by
    simp only [walk, visits, runVisits]
    cases fn path none (some e) s <;> rfl
  | .dir lerr ents, s => by
    simp only [walk, visits, runVisits]
    cases fn path (some ⟨true⟩) lerr s with
    | ok s1 =>
      cases lerr with
      | none => simpa using walkEntries_eq_runVisits fn path ents s1
      | some e => simp [runVisits]
    | error e => rfl
    | panic => rfl
theorem walkEntries_eq_runVisits {σ : Type} (fn : WalkFunc σ) (path : String) :
    ∀ (ents : Entries) (s : σ), walkEntries fn path ents s = runVisits fn (visitsEntries path ents) s
  | .nil, s => by simp [walkEntries, visitsEntries, runVisits]
  | .cons name n rest, s => by
    simp only [walkEntries, visitsEntries, runVisits_append]
    rw [walk_eq_runVisits fn (Join path name) n s]
    cases runVisits fn (visits (Join path name) n) s with
    | ok s1 => exact walkEntries_eq_runVisits fn path rest s1
    | error e => rfl
    | panic => rfl
end

theorem Walk_eq_runVisits {σ : Type} (fs : FileSystem) (root : String) (fn : WalkFunc σ) (s : σ) :
    Walk fs root fn s = runVisits fn (visits root (fs.tree root)) s :=
  walk_eq_runVisits fn root (fs.tree root) s

/-! ### Maps, and runs that write one key per visit -/

theorem mapGet_filter_ne {α : Type} (m : List (String × α)) (k k1 : String) (h : k1 ≠ k) :
    mapGet (m.filter (fun e => e.1 ≠ k)) k1 = mapGet m k1 := by
  induction m with
  | nil => rfl
  | cons e m ih =>
    rcases e with ⟨k2, v⟩
    by_cases h2 : k2 = k
    · rw [List.filter_cons_of_neg (by simp [h2]), ih]
      have : k1 ≠ k2 := h2 ▸ h
      simp [mapGet, this]
    · rw [List.filter_cons_of_pos (by simp [h2])]
      simp only [mapGet, ih]

theorem mapGet_mapSet {α : Type} (m : List (String × α)) (k k1 : String) (v : α) :
    mapGet (mapSet m k v) k1 = if k1 = k then some v else mapGet m k1 := by
  by_cases h : k1 = k
  · simp [mapSet, mapGet, h]
  · simp only [mapSet, mapGet, h, if_false]
    exact mapGet_filter_ne m k k1 h

section KeyedStep

variable {σ α : Type} {fn : WalkFunc σ} {get : σ → String → Option α}
  {Ent : Visit → String → α → Prop} {Inv : σ → Prop}

theorem KeyedStep.run_inv (K : KeyedStep fn get Ent Inv) :
    ∀ (vs : List Visit) (s s1 : σ), Inv s → runVisits fn vs s = .ok s1 → Inv s1 := by
  intro vs
  induction vs with
  | nil =>
    intro s s1 hI h
    simp only [runVisits, Outcome.ok.injEq] at h
    exact h ▸ hI
  | cons v vs ih =>
    intro s s1 hI h
    simp only [runVisits] at h
    cases hv : fn v.path v.info v.err s with
    | ok s2 =>
      rw [hv] at h
      exact ih s2 s1 (K.step v s s2 hI hv).1 h
    | error e => rw [hv] at h; cases h
    | panic => rw [hv] at h; cases h

theorem KeyedStep.run_untouched (K : KeyedStep fn get Ent Inv) (k : String) :
    ∀ (vs : List Visit) (s s1 : σ), Inv s → runVisits fn vs s = .ok s1 →
      (∀ u ∈ vs, ∀ a, ¬ Ent u k a) → get s1 k = get s k := by
  intro vs
  induction vs with
  | nil =>
    intro s s1 _ h _
    simp only [runVisits, Outcome.ok.injEq] at h
    rw [h]
  | cons v vs ih =>
    intro s s1 hI h hno
    simp only [runVisits] at h
    cases hv : fn v.path v.info v.err s with
    | ok s2 =>
      rw [hv] at h
      have hs := K.step v s s2 hI hv
      rw [ih s2 s1 hs.1 h (fun u hu => hno u (List.mem_cons_of_mem _ hu))]
      rcases hs.2 with ⟨_, h2⟩ | ⟨k0, a0, h1, h2⟩
      · exact h2 k
      · rw [h2 k]
        have hne : k ≠ k0 := by
          intro hk
          exact hno v (List.mem_cons_self _ _) a0 (hk ▸ h1)
        simp [hne]
    | error e => rw [hv] at h; cases h
    | panic => rw [hv] at h; cases h

theorem KeyedStep.run_last (K : KeyedStep fn get Ent Inv) (k : String) (a : α) (v : Visit)
    (post : List Visit) :
    ∀ (pre : List Visit) (s s1 : σ), Inv s → runVisits fn (pre ++ v :: post) s = .ok s1 →
      Ent v k a → (∀ u ∈ post, ∀ a1, ¬ Ent u k a1) → get s1 k = some a := by
  intro pre
  induction pre with
  | nil =>
    intro s s1 hI h hE hno
    simp only [List.nil_append, runVisits] at h
    cases hv : fn v.path v.info v.err s with
    | ok s2 =>
      rw [hv] at h
      have hs := K.step v s s2 hI hv
      rw [K.run_untouched k post s2 s1 hs.1 h hno]
      rcases hs.2 with ⟨h1, _⟩ | ⟨k0, a0, h1, h2⟩
      · exact absurd hE (h1 k a)
      · obtain ⟨hk, ha⟩ := K.unique v k k0 a a0 hE h1
        rw [h2 k, hk, ha]
        simp
    | error e => rw [hv] at h; cases h
    | panic => rw [hv] at h; cases h
  | cons w pre ih =>
    intro s s1 hI h hE hno
    simp only [List.cons_append, runVisits] at h
    cases hv : fn w.path w.info w.err s with
    | ok s2 =>
      rw [hv] at h
      exact ih s2 s1 (K.step w s s2 hI hv).1 h hE hno
    | error e => rw [hv] at h; cases h
    | panic => rw [hv] at h; cases h

theorem KeyedStep.run_called (K : KeyedStep fn get Ent Inv) :
    ∀ (vs : List Visit) (s s1 : σ), Inv s → runVisits fn vs s = .ok s1 →
      ∀ v ∈ vs, ∃ s2 s3, Inv s2 ∧ fn v.path v.info v.err s2 = .ok s3 := by
  intro vs
  induction vs with
  | nil => intro s s1 _ _ v hv; cases hv
  | cons w vs ih =>
    intro s s1 hI h v hv
    simp only [runVisits] at h
    cases hw : fn w.path w.info w.err s with
    | ok s2 =>
      rw [hw] at h
      rcases List.mem_cons.mp hv with rfl | hv1
      · exact ⟨s, s2, hI, hw⟩
      · exact ih s2 s1 (K.step w s s2 hI hw).1 h v hv1
    | error e => rw [hw] at h; cases h
    | panic => rw [hw] at h; cases h

theorem exists_last {β : Type} (P : β → Prop) :
    ∀ (l : List β), (∃ x ∈ l, P x) →
      ∃ pre x post, l = pre ++ x :: post ∧ P x ∧ ∀ y ∈ post, ¬ P y := by
  intro l
  induction l with
  | nil => rintro ⟨x, hx, _⟩; cases hx
  | cons y l ih =>
    intro h
    by_cases hl : ∃ x ∈ l, P x
    · obtain ⟨pre, x, post, h1, h2, h3⟩ := ih hl
      exact ⟨y :: pre, x, post, by simp [h1], h2, h3⟩
    · obtain ⟨x, hx, hP⟩ := h
      rcases List.mem_cons.mp hx with rfl | hx1
      · exact ⟨[], x, l, rfl, hP, fun z hz hPz => hl ⟨z, hz, hPz⟩⟩
      · exact absurd ⟨x, hx1, hP⟩ hl

theorem KeyedStep.run_cases (K : KeyedStep fn get Ent Inv) (k : String) (a : α)
    (vs : List Visit) (s s1 : σ) (hI : Inv s) (h : runVisits fn vs s = .ok s1)
    (hk : get s1 k = some a) :
    (get s k = some a ∧ ∀ u ∈ vs, ∀ a1, ¬ Ent u k a1) ∨
      ∃ pre v post, vs = pre ++ v :: post ∧ Ent v k a ∧ ∀ u ∈ post, ∀ a1, ¬ Ent u k a1 := by
  by_cases hw : ∃ u ∈ vs, ∃ a1, Ent u k a1
  · right
    obtain ⟨pre, v, post, h1, ⟨a1, h2⟩, h3⟩ := exists_last (fun u => ∃ a1, Ent u k a1) vs hw
    have hno : ∀ u ∈ post, ∀ a2, ¬ Ent u k a2 := fun u hu a2 hE => h3 u hu ⟨a2, hE⟩
    have := K.run_last k a1 v post pre s s1 hI (h1 ▸ h) h2 hno
    rw [hk] at this
    cases this
    exact ⟨pre, v, post, h1, h2, hno⟩
  · left
    have hno : ∀ u ∈ vs, ∀ a1, ¬ Ent u k a1 := fun u hu a1 hE => hw ⟨u, hu, a1, hE⟩
    exact ⟨(K.run_untouched k vs s s1 hI h hno) ▸ hk, hno⟩

end KeyedStep

/-! ### The heap of name spaces -/

theorem treesAt_append_left (heap ext : Heap F T) (a : Nat) (h : a < heap.length) :
    treesAt (heap ++ ext) a = treesAt heap a := by
  simp [treesAt, List.getElem?_append_left h]

theorem funcsAt_append_left (E : Engine F T D) (heap ext : Heap F T) (a : Nat)
    (h : a < heap.length) : funcsAt E (heap ++ ext) a = funcsAt E heap a := by
  simp [funcsAt, List.getElem?_append_left h]

theorem treesAt_length (heap ext : Heap F T) (c : NameSpace F T) :
    treesAt (heap ++ c :: ext) heap.length = c.trees := by
  have : (heap ++ c :: ext)[heap.length]? = some c := by
    rw [List.getElem?_append_right (Nat.le_refl _)]
    simp
  simp only [treesAt, this]

theorem funcsAt_length (E : Engine F T D) (heap ext : Heap F T) (c : NameSpace F T) :
    funcsAt E (heap ++ c :: ext) heap.length = c.funcs := by
  have : (heap ++ c :: ext)[heap.length]? = some c := by
    rw [List.getElem?_append_right (Nat.le_refl _)]
    simp
  simp only [funcsAt, this]

theorem set_length (heap ext : Heap F T) (c v : NameSpace F T) :
    (heap ++ c :: ext).set heap.length v = heap ++ v :: ext := by
  induction heap with
  | nil => rfl
  | cons x xs ih => simp [List.set, ih]

theorem treesAt_set_eq (heap : Heap F T) (a : Nat) (v : NameSpace F T) (h : a < heap.length) :
    treesAt (heap.set a v) a = v.trees := by
  simp [treesAt, List.getElem?_set_self, h]

theorem funcsAt_set_eq (E : Engine F T D) (heap : Heap F T) (a : Nat) (v : NameSpace F T)
    (h : a < heap.length) : funcsAt E (heap.set a v) a = v.funcs := by
  simp [funcsAt, List.getElem?_set_self, h]

theorem deref_append_left (E : Engine F T D) (heap ext : Heap F T) (t : TemplateRef)
    (h : t.ns < heap.length) : t.deref E (heap ++ ext) = t.deref E heap := by
  simp [TemplateRef.deref, treesAt_append_left heap ext t.ns h,
    funcsAt_append_left E heap ext t.ns h]

theorem cloneTrees_append_left (heap ext : Heap F T) (t : TemplateRef) (h : t.ns < heap.length) :
    cloneTrees (heap ++ ext) t = cloneTrees heap t := by
  simp [cloneTrees, treesAt_append_left heap ext t.ns h]

theorem mapGet_map {α β : Type} (f : α → β) (m : List (String × α)) (k : String) :
    mapGet (m.map (fun e => (e.1, f e.2))) k = (mapGet m k).map f := by
  induction m with
  | nil => rfl
  | cons e m ih =>
    rcases e with ⟨k1, v⟩
    by_cases hk : k = k1
    · simp [mapGet, hk]
    · simp [mapGet, hk, ih]

/-! ### Adding parse trees -/

theorem mapGet_addTree_eq (E : Engine F T D) (trees : List (String × T)) (name : String)
    (tree : T) :
    mapGet (addTree E trees name tree) name =
      if (mapGet trees name).isSome ∧ E.isEmpty tree = true then mapGet trees name
      else some tree := by
  unfold addTree
  split
  · rfl
  · rw [mapGet_mapSet, if_pos rfl]

theorem runVisits_keeps_mem {σ : Type} (fn : WalkFunc σ) (P : σ → Prop) :
    ∀ (vs : List Visit),
      (∀ v ∈ vs, ∀ (s s1 : σ), P s → fn v.path v.info v.err s = .ok s1 → P s1) →
      ∀ (s s1 : σ), P s → runVisits fn vs s = .ok s1 → P s1 := by
  intro vs
  induction vs with
  | nil =>
    intro _ s s1 hP h
    simp only [runVisits, Outcome.ok.injEq] at h
    exact h ▸ hP
  | cons v vs ih =>
    intro hstep s s1 hP h
    simp only [runVisits] at h
    cases hv : fn v.path v.info v.err s with
    | ok s2 =>
      rw [hv] at h
      exact ih (fun u hu => hstep u (List.mem_cons_of_mem _ hu)) s2 s1
        (hstep v (List.mem_cons_self _ _) s s2 hP hv) h
    | error e => rw [hv] at h; cases h
    | panic => rw [hv] at h; cases h

theorem runVisits_keeps {σ : Type} (fn : WalkFunc σ) (P : σ → Prop)
    (hstep : ∀ (v : Visit) (s s1 : σ), P s → fn v.path v.info v.err s = .ok s1 → P s1)
    (vs : List Visit) (s s1 : σ) (hP : P s) (h : runVisits fn vs s = .ok s1) : P s1 :=
  runVisits_keeps_mem fn P vs (fun v _ => hstep v) s s1 hP h

/-- A successful call of the partials callback on an accepted entry: the path was
relativised, the file read, `New` called on `layoutTpl` with the computed name, and the
file parsed into the new template. -/
theorem partialFn_ok_entry (E : Engine F T D) (fs : FileSystem) (dir path : String)
    (err : Option String) (s s1 : Heap F T × TemplateRef)
    (h : partialFn E fs dir path (some ⟨false⟩) err s = .ok s1)
    (hp : HasPrefix (Base path) "_" = true) :
    ∃ rel b, Rel dir path = .ok rel ∧ fs.readFile path = .ok b ∧
      ((s.2.New E s.1 (removeExtension (Base rel))).2.2).Parse E
        (s.2.New E s.1 (removeExtension (Base rel))).1 b = .ok s1.1 ∧
      s1.2 = (s.2.New E s.1 (removeExtension (Base rel))).2.1 := by
  simp only [partialFn, hp, Bool.false_eq_true, if_false, Bool.not_true] at h
  cases hr : Rel dir path with
  | error e => rw [hr] at h; cases h
  | ok rel =>
    rw [hr] at h
    simp only at h
    cases hb : fs.readFile path with
    | error e => rw [hb] at h; cases h
    | ok b =>
      rw [hb] at h
      simp only at h
      cases hq : ((s.2.New E s.1 (removeExtension (Base rel))).2.2).Parse E
          (s.2.New E s.1 (removeExtension (Base rel))).1 b with
      | error e => rw [hq] at h; cases h
      | ok heap2 =>
        rw [hq] at h
        simp only [Outcome.ok.injEq] at h
        subst h
        exact ⟨rel, b, rfl, rfl, hq, rfl⟩

/-- What `Parse` does to the heap when it succeeds. -/
theorem Parse_ok (E : Engine F T D) (heap heap1 : Heap F T) (t : TemplateRef) (text : String)
    (h : t.Parse E heap text = .ok heap1) :
    ∃ top defs, E.parse (funcsAt E heap t.ns) text = .ok (top, defs) ∧
      heap1 = heap.set t.ns
        ⟨funcsAt E heap t.ns, addTree E (addTrees E (treesAt heap t.ns) defs) t.name top⟩ := by
  unfold TemplateRef.Parse at h
  cases hq : E.parse (funcsAt E heap t.ns) text with
  | error e => rw [hq] at h; cases h
  | ok r =>
    rcases r with ⟨top, defs⟩
    rw [hq] at h
    simp only [Except.ok.injEq] at h
    exact ⟨top, defs, rfl, h.symm⟩

/-- A successful call of the pages callback on an entry that is not skipped: the heap
grows by the name space of the clone, whose address is the old length of the heap, and
the name is bound to the template `yield` in it. -/
theorem pageFn_ok_entry (E : Engine F T D) (fs : FileSystem) (dir layout path : String)
    (err : Option String) (L : TemplateRef) (heap heap1 : Heap F T)
    (tpls tpls1 : List (String × TemplateRef))
    (h : pageFn E fs dir layout L path (some ⟨false⟩) err (heap, tpls) = .ok (heap1, tpls1))
    (hp : ¬ (path = Join dir layout ∨ HasPrefix (Base path) "_" = true)) :
    ∃ rel b top defs ext, Rel dir path = .ok rel ∧ fs.readFile path = .ok b ∧
      E.parse (funcsAt E heap L.ns) b = .ok (top, defs) ∧
      heap1 = heap ++ ⟨funcsAt E heap L.ns,
        addTree E (addTrees E (cloneTrees heap L) defs) "yield" top⟩ :: ext ∧
      tpls1 = mapSet tpls (removeExtension rel) ⟨heap.length, "yield", true⟩ := by
  simp only [pageFn, hp, Bool.false_eq_true, if_false] at h
  cases err with
  | some e => cases h
  | none =>
    simp only at h
    cases hr : Rel dir path with
    | error e => rw [hr] at h; cases h
    | ok rel =>
      rw [hr] at h
      simp only at h
      cases hb : fs.readFile path with
      | error e => rw [hb] at h; cases h
      | ok b =>
        rw [hb] at h
        simp only [TemplateRef.Clone] at h
        have hnew : ∃ ext, (TemplateRef.New E
            (heap ++ [⟨funcsAt E heap L.ns, cloneTrees heap L⟩]) ⟨heap.length, L.name, true⟩
            "yield") = (heap ++ ⟨funcsAt E heap L.ns, cloneTrees heap L⟩ :: ext,
              (TemplateRef.New E (heap ++ [⟨funcsAt E heap L.ns, cloneTrees heap L⟩])
                ⟨heap.length, L.name, true⟩ "yield").2.1, ⟨heap.length, "yield", true⟩) := by
          unfold TemplateRef.New
          split
          · exact ⟨[⟨E.noFuncs, []⟩], by simp⟩
          · exact ⟨[], by simp⟩
        obtain ⟨ext, hnew⟩ := hnew
        rw [hnew] at h
        simp only at h
        cases hq : TemplateRef.Parse E
            (heap ++ ⟨funcsAt E heap L.ns, cloneTrees heap L⟩ :: ext)
            ⟨heap.length, "yield", true⟩ b with
        | error e => rw [hq] at h; cases h
        | ok heap3 =>
          rw [hq] at h
          simp only [Outcome.ok.injEq, Prod.mk.injEq] at h
          obtain ⟨top, defs, hparse, hheap⟩ := Parse_ok E _ heap3 _ b hq
          simp only [funcsAt_length, treesAt_length, set_length] at hparse hheap
          refine ⟨rel, b, top, defs, ext, rfl, rfl, hparse, ?_, h.2.symm⟩
          rw [← h.1, hheap]

theorem partialFn_keeps (E : Engine F T D) (fs : FileSystem) (dir : String) (v : Visit)
    (s s1 : Heap F T × TemplateRef) (hP : s.2.ns < s.1.length ∧ s.2.name = "")
    (h : partialFn E fs dir v.path v.info v.err s = .ok s1) :
    s1.2.ns < s1.1.length ∧ s1.2.name = "" := by
  rcases v with ⟨path, info, err⟩
  cases info with
  | none => simp [partialFn] at h
  | some i =>
    rcases i with ⟨d⟩
    cases d with
    | true =>
      simp only [partialFn, if_true, Outcome.ok.injEq] at h
      exact h ▸ hP
    | false =>
      by_cases hp : HasPrefix (Base path) "_" = true
      · obtain ⟨rel, b, _, _, hq, hl⟩ := partialFn_ok_entry E fs dir path err s s1 h hp
        obtain ⟨_, _, _, hheap⟩ := Parse_ok E _ _ _ b hq
        have hlen : s1.1.length = (s.2.New E s.1 (removeExtension (Base rel))).1.length := by
          rw [hheap, List.length_set]
        rw [hl, hlen]
        unfold TemplateRef.New
        split
        · simp [hP.2]
        · exact hP
      · simp only [partialFn, hp, Bool.false_eq_true, if_false, Bool.not_false, if_true,
          Outcome.ok.injEq] at h
        exact h ▸ hP

theorem pageFn_keyed (E : Engine F T D) (fs : FileSystem) (dir layout : String)
    (L : TemplateRef) (fL : F) (base : List (String × T)) :
    KeyedStep (pageFn E fs dir layout L)
      (fun s k => (mapGet s.2 k).map (TemplateRef.deref E s.1))
      (PageEnt E fs dir layout fL base)
      (fun s => (∀ k r, mapGet s.2 k = some r → r.ns < s.1.length) ∧ L.ns < s.1.length ∧
        funcsAt E s.1 L.ns = fL ∧ cloneTrees s.1 L = base) where
  step := by
    rintro ⟨path, info, err⟩ ⟨heap, tpls⟩ ⟨heap1, tpls1⟩ hI h
    cases info with
    | none => simp [pageFn] at h
    | some i =>
      rcases i with ⟨d⟩
      cases d with
      | true =>
        simp only [pageFn, if_true, Outcome.ok.injEq, Prod.mk.injEq] at h
        obtain ⟨rfl, rfl⟩ := h
        refine ⟨hI, Or.inl ⟨?_, fun _ => rfl⟩⟩
        rintro k a ⟨h1, _⟩
        simp at h1
      | false =>
        by_cases hp : path = Join dir layout ∨ HasPrefix (Base path) "_" = true
        · simp only [pageFn, hp, Bool.false_eq_true, if_false, if_true, Outcome.ok.injEq,
            Prod.mk.injEq] at h
          obtain ⟨rfl, rfl⟩ := h
          refine ⟨hI, Or.inl ⟨?_, fun _ => rfl⟩⟩
          rintro k a ⟨_, h2, _⟩
          exact h2 hp
        · obtain ⟨rel, b, top, defs, ext, hr, hb, hq, hheap, htpls⟩ :=
            pageFn_ok_entry E fs dir layout path err L heap heap1 tpls tpls1 h hp
          obtain ⟨hrefs, hL, hf, hbase⟩ := hI
          simp only at hrefs hL hf hbase
          subst hheap htpls
          rw [hf] at hq
          rw [hf, hbase]
          refine ⟨⟨?_, ?_, ?_, ?_⟩, Or.inr ⟨removeExtension rel,
            ⟨"yield", fL, addTree E (addTrees E base defs) "yield" top⟩,
            ⟨rfl, hp, rel, b, top, defs, hr, rfl, hb, hq, rfl⟩, ?_⟩⟩
          · intro k r hk
            simp only [mapGet_mapSet] at hk
            simp only [List.length_append, List.length_cons]
            split at hk
            · cases hk
              simp
            · have := hrefs k r hk
              omega
          · simp only [List.length_append, List.length_cons]
            omega
          · simp only
            rw [funcsAt_append_left E heap _ L.ns hL, hf]
          · simp only
            rw [cloneTrees_append_left heap _ L hL, hbase]
          · intro k1
            simp only [mapGet_mapSet]
            by_cases hk : k1 = removeExtension rel
            · simp [hk, TemplateRef.deref, funcsAt_length, treesAt_length]
            · simp only [hk, if_false]
              cases hg : mapGet tpls k1 with
              | none => rfl
              | some r =>
                simp only [Option.map_some']
                rw [deref_append_left E heap _ r (hrefs k1 r hg)]
  unique := by
    rintro v k k1 a a1 ⟨_, _, rel, b, top, defs, h1, h2, h3, h4, h5⟩
      ⟨_, _, rel1, b1, top1, defs1, g1, g2, g3, g4, g5⟩
    rw [h1] at g1
    cases g1
    rw [h3] at g3
    cases g3
    rw [h4] at g4
    cases g4
    exact ⟨h2.trans g2.symm, h5.trans g5.symm⟩

/-- A successful `Load` has read and parsed the layout into a new name space, run the
partials walk to a heap `heapL` and a layout reference `L`, and run the pages walk from
the empty map; the returned mapping gives each stored reference by the template it
stands for in the final heap. -/
theorem Load_returned (E : Engine F T D) (fs : FileSystem) (dir partialDir layout : String)
    (funcs : F) (m : Templates F T)
    (h : Load E fs dir partialDir layout funcs = .returned (some m) none) :
    ∃ b heap1 heapL L heap3 tpls, fs.readFile (Join dir layout) = .ok b ∧
      TemplateRef.Parse E [⟨funcs, []⟩] ⟨0, "", true⟩ b = .ok heap1 ∧
      Walk fs partialDir (partialFn E fs dir) (heap1, ⟨0, "", true⟩) = .ok (heapL, L) ∧
      L.ns < heapL.length ∧ L.name = "" ∧
      Walk fs dir (pageFn E fs dir layout L) (heapL, []) = .ok (heap3, tpls) ∧
      m = tpls.map (fun e => (e.1, e.2.deref E heap3)) := by
  unfold Load at h
  cases hb : fs.readFile (Join dir layout) with
  | error e => rw [hb] at h; cases h
  | ok b =>
    rw [hb] at h
    simp only [templateNew, List.nil_append, List.length_nil] at h
    cases hq : TemplateRef.Parse E [⟨funcs, []⟩] ⟨0, "", true⟩ b with
    | error e => rw [hq] at h; cases h
    | ok heap1 =>
      rw [hq] at h
      simp only at h
      cases hw : Walk fs partialDir (partialFn E fs dir) (heap1, ⟨0, "", true⟩) with
      | panic => rw [hw] at h; cases h
      | error e => rw [hw] at h; cases h
      | ok sL =>
        rcases sL with ⟨heapL, L⟩
        rw [hw] at h
        simp only at h
        cases hv : Walk fs dir (pageFn E fs dir layout L) (heapL, []) with
        | panic => rw [hv] at h; cases h
        | error e => rw [hv] at h; cases h
        | ok sG =>
          rcases sG with ⟨heap3, tpls⟩
          rw [hv] at h
          simp only [LoadResult.returned.injEq, Option.some.injEq, and_true] at h
          have hlen : heap1.length = 1 := by
            obtain ⟨_, _, _, hheap⟩ := Parse_ok E _ _ _ b hq
            rw [hheap, List.length_set]
            rfl
          have hI := runVisits_keeps (partialFn E fs dir)
            (fun s => s.2.ns < s.1.length ∧ s.2.name = "")
            (fun v s s1 hP hs => partialFn_keeps E fs dir v s s1 hP hs)
            (visits partialDir (fs.tree partialDir)) (heap1, ⟨0, "", true⟩) (heapL, L)
            ⟨by simp [hlen], rfl⟩ (by rw [← Walk_eq_runVisits]; exact hw)
          exact ⟨b, heap1, heapL, L, heap3, tpls, rfl, hq, hw, hI.1, hI.2, hv, h.symm⟩

/-! ### `Load`: stored templates -/

/-- Counterexample to claim C2 as stated: the layout defines `yield` as `D` in a nested
definition and the page `tpl/empty.tpl` is empty; `Load` succeeds, and the sub-template
`yield` of the template stored under `empty` is `D`, not the parsed content of the page
file, because an empty parse tree does not replace a template that exists. -/
theorem Load_empty_page_keeps_yield :
    Load textEngine fsDefault "tpl" "parts" "layout.tpl" () =
        .returned (some [("index", ⟨"yield", (), [("yield", "I"), ("", "L")]⟩),
          ("empty", ⟨"yield", (), [("", "L"), ("yield", "D")]⟩)]) none ∧
      fsDefault.readFile "tpl/layout.tpl" = .ok layoutWithYield ∧
      textEngine.parse () layoutWithYield = .ok ("L", [("yield", "D")]) ∧
      fsDefault.readFile "tpl/empty.tpl" = .ok "" ∧
      textEngine.parse () "" = .ok ("", []) ∧
      textEngine.isEmpty "" = true ∧
      (⟨"yield", (), [("", "L"), ("yield", "D")]⟩ : Template Unit String).Lookup "yield" =
        some "D" := by
  decide

/-- Claim C2, amended: after a successful `Load` there is one layout, the reference `L`
in the heap `heapL` that the partials walk left, such that every template stored under a
key `n` is named `yield` in a name space of its own that started as a copy of the name
space of `L` and to which the trees of the page file walked last among the page files
with the computed name `n` were added (no page file walked later has the name `n`). Its
sub-template `yield` is the parsed content of that page file, unless that content is
empty and the copy, with the nested definitions of the page, has a template `yield`
already, which then stays. Moreover a call of the pages callback leaves every name space
of the heap as it was, that of the layout and those of the clones stored before among
them: it only adds name spaces, and it changes the mapping at most at the computed name,
which it binds to the template `yield` of the first new name space. -/
theorem Load_yield_last_write (E : Engine F T D) (fs : FileSystem)
    (dir partialDir layout : String) (funcs : F) (m : Templates F T)
    (h : Load E fs dir partialDir layout funcs = .returned (some m) none) :
    ∃ (heapL : Heap F T) (L : TemplateRef),
      (∃ b0 heap1, fs.readFile (Join dir layout) = .ok b0 ∧
        TemplateRef.Parse E [⟨funcs, []⟩] ⟨0, "", true⟩ b0 = .ok heap1 ∧
        Walk fs partialDir (partialFn E fs dir) (heap1, ⟨0, "", true⟩) = .ok (heapL, L)) ∧
      (∀ n t, mapGet m n = some t →
        ∃ pre v post rel b top defs,
          visits dir (fs.tree dir) = pre ++ v :: post ∧ v.info = some ⟨false⟩ ∧
          ¬ (v.path = Join dir layout ∨ HasPrefix (Base v.path) "_" = true) ∧
          Rel dir v.path = .ok rel ∧ removeExtension rel = n ∧
          fs.readFile v.path = .ok b ∧
          E.parse (funcsAt E heapL L.ns) b = .ok (top, defs) ∧
          t = ⟨"yield", funcsAt E heapL L.ns,
            addTree E (addTrees E (cloneTrees heapL L) defs) "yield" top⟩ ∧
          (t.Lookup "yield" = some top ∨
            (E.isEmpty top = true ∧
              (mapGet (addTrees E (cloneTrees heapL L) defs) "yield").isSome = true ∧
              t.Lookup "yield" = mapGet (addTrees E (cloneTrees heapL L) defs) "yield")) ∧
          ∀ u ∈ post, u.info = some ⟨false⟩ →
            ¬ (u.path = Join dir layout ∨ HasPrefix (Base u.path) "_" = true) →
            ∀ rel1, Rel dir u.path = .ok rel1 → removeExtension rel1 ≠ n) ∧
      (∀ path info err heap tpls heap1 tpls1,
        pageFn E fs dir layout L path info err (heap, tpls) = .ok (heap1, tpls1) →
        (∃ ext, heap1 = heap ++ ext) ∧
        (tpls1 = tpls ∨ ∃ rel, Rel dir path = .ok rel ∧
          tpls1 = mapSet tpls (removeExtension rel) ⟨heap.length, "yield", true⟩)) := by
  obtain ⟨b0, heap1, heapL, L, heap3, tpls, hb0, hq0, hwP, hLlen, _, hwG, hm⟩ :=
    Load_returned E fs dir partialDir layout funcs m h
  have K := pageFn_keyed E fs dir layout L (funcsAt E heapL L.ns) (cloneTrees heapL L)
  have hI0 : (∀ k r, mapGet ([] : List (String × TemplateRef)) k = some r → r.ns < heapL.length) ∧
      L.ns < heapL.length ∧ funcsAt E heapL L.ns = funcsAt E heapL L.ns ∧
      cloneTrees heapL L = cloneTrees heapL L :=
    ⟨fun k r hk => by simp [mapGet] at hk, hLlen, rfl, rfl⟩
  refine ⟨heapL, L, ⟨b0, heap1, hb0, hq0, hwP⟩, ?_, ?_⟩
  · intro n t hget
    rw [Walk_eq_runVisits] at hwG
    have hget1 : (mapGet tpls n).map (TemplateRef.deref E heap3) = some t := by
      rw [← mapGet_map, ← hm]
      exact hget
    rcases K.run_cases n t _ (heapL, []) (heap3, tpls) hI0 hwG hget1 with
      ⟨h0, _⟩ | ⟨pre, v, post, hsplit, hE, hno⟩
    · simp [mapGet] at h0
    · obtain ⟨hinfo, hskip, rel, b, top, defs, hr, hname, hb, hq, ht⟩ := hE
      refine ⟨pre, v, post, rel, b, top, defs, hsplit, hinfo, hskip, hr, hname.symm, hb,
        hq, ht, ?_, ?_⟩
      · rw [ht]
        simp only [Template.Lookup, mapGet_addTree_eq]
        by_cases hc : (mapGet (addTrees E (cloneTrees heapL L) defs) "yield").isSome = true ∧
            E.isEmpty top = true
        · rw [if_pos hc]
          exact Or.inr ⟨hc.2, hc.1, rfl⟩
        · rw [if_neg hc]
          exact Or.inl rfl
      · intro u hu hui hus rel1 hr1 hn1
        have hmem : u ∈ visits dir (fs.tree dir) := by
          rw [hsplit]
          simp [hu]
        obtain ⟨s2, s3, hI2, hcall⟩ := K.run_called _ (heapL, []) (heap3, tpls) hI0 hwG u hmem
        rcases s2 with ⟨hp2, tp2⟩
        rcases s3 with ⟨hp3, tp3⟩
        rw [hui] at hcall
        obtain ⟨rel2, b2, top2, defs2, _, hr2, hb2, hq2, _, _⟩ :=
          pageFn_ok_entry E fs dir layout u.path u.err L hp2 hp3 tp2 tp3 hcall hus
        rw [hr1] at hr2
        cases hr2
        rw [hI2.2.2.1] at hq2
        exact hno u hu _ ⟨hui, hus, rel1, b2, top2, defs2, hr1, hn1.symm, hb2, hq2, rfl⟩
  · intro path info err heap tpls heap1 tpls1 hstep
    cases info with
    | none => simp [pageFn] at hstep
    | some i =>
      rcases i with ⟨d⟩
      cases d with
      | true =>
        simp only [pageFn, if_true, Outcome.ok.injEq, Prod.mk.injEq] at hstep
        exact ⟨⟨[], by simp [hstep.1]⟩, Or.inl hstep.2.symm⟩
      | false =>
        by_cases hp : path = Join dir layout ∨ HasPrefix (Base path) "_" = true
        · simp only [pageFn, hp, Bool.false_eq_true, if_false, if_true, Outcome.ok.injEq,
            Prod.mk.injEq] at hstep
          exact ⟨⟨[], by simp [hstep.1]⟩, Or.inl hstep.2.symm⟩
        · obtain ⟨rel, _, _, _, ext, hr, _, _, hheap, htpls⟩ :=
            pageFn_ok_entry E fs dir layout path err L heap heap1 tpls tpls1 hstep hp
          exact ⟨⟨_, hheap⟩, Or.inr ⟨rel, hr, htpls⟩⟩

theorem Load_yield_last_write_witness :
    Load textEngine fsSmall "tpl" "tpl/partials" "layout.tpl" () =
        .returned (some tplsSmall) none ∧
      ∃ (f : Unit) (base : List (String × String)), ∀ n t, mapGet tplsSmall n = some t →
        ∃ top defs, t = ⟨"yield", f, addTree textEngine (addTrees textEngine base defs)
          "yield" top⟩ := by
  refine ⟨by decide, ?_⟩
  obtain ⟨heapL, L, _, h2, _⟩ := Load_yield_last_write textEngine fsSmall "tpl" "tpl/partials"
    "layout.tpl" () tplsSmall (by decide)
  refine ⟨funcsAt textEngine heapL L.ns, cloneTrees heapL L, fun n t hget => ?_⟩
  obtain ⟨_, _, _, _, _, top, defs, _, _, _, _, _, _, _, ht, _⟩ := h2 n t hget
  exact ⟨top, defs, ht⟩

/-! ### Names -/

theorem Base_last_elem (d f : List Char) (hf : f ≠ []) (hsep : '/' ∉ f) :
    Base ⟨d ++ '/' :: f⟩ = ⟨f⟩ := by
  obtain ⟨g, c, rfl⟩ : ∃ g c, f = g ++ [c] := by
    rcases List.eq_nil_or_concat f with h | ⟨g, c, h⟩
    · exact absurd h hf
    · exact ⟨g, c, by simpa using h⟩
  have hc : c ≠ '/' := fun hc => hsep (by simp [hc])
  have hg : ∀ a ∈ (g ++ [c]).reverse, (a ≠ '/') := by
    intro a ha hs
    exact hsep (hs ▸ List.mem_reverse.mp ha)
  have hne : (⟨d ++ '/' :: (g ++ [c])⟩ : String) ≠ "" := by
    intro h
    have := congrArg String.data h
    simp at this
  have hstrip : stripTrailingSep (d ++ '/' :: (g ++ [c])) = d ++ '/' :: (g ++ [c]) := by
    simp [stripTrailingSep, hc]
  have hlast : lastElem (d ++ '/' :: (g ++ [c])) = g ++ [c] := by
    unfold lastElem
    have hrev : (d ++ '/' :: (g ++ [c])).reverse = (g ++ [c]).reverse ++ '/' :: d.reverse := by
      simp
    rw [hrev, List.takeWhile_append_of_pos (by simpa using hg)]
    simp
  simp only [Base, hne, if_false, hstrip, hlast]
  simp

theorem removeExtension_nested (d f : List Char) (hd : '.' ∉ d) :
    removeExtension ⟨d ++ '/' :: f⟩ = ⟨d ++ '/' :: (removeExtension ⟨f⟩).data⟩ := by
  rcases indexByte_spec '.' f with ⟨_, h2⟩ | ⟨pre, post, h1, h2, _⟩
  · rw [removeExtension_of_no_dot ⟨f⟩ h2]
    apply removeExtension_of_no_dot
    simp only [List.mem_append, List.mem_cons, not_or]
    exact ⟨hd, by decide, h2⟩
  · rw [removeExtension_of_dot ⟨f⟩ pre post h1 h2]
    apply removeExtension_of_dot _ (d ++ '/' :: pre) post
    · simp [h1]
    · simp only [List.mem_append, List.mem_cons, not_or]
      exact ⟨hd, by decide, h2⟩

theorem HasPrefix_underscore (s : String) :
    HasPrefix s "_" = true ↔ ∃ rest, s.data = '_' :: rest := by
  have hd : ("_" : String).data = ['_'] := rfl
  unfold HasPrefix
  rw [hd]
  cases hs : s.data with
  | nil => simp [List.isPrefixOf]
  | cons x xs =>
    simp only [List.isPrefixOf, Bool.and_true, beq_iff_eq, List.cons.injEq, exists_eq_right']
    exact eq_comm

theorem removeExtension_underscore (s : String) (h : HasPrefix s "_" = true) :
    HasPrefix (removeExtension s) "_" = true ∧ removeExtension s ≠ "" ∧
      removeExtension s ≠ "yield" := by
  obtain ⟨rest, hs⟩ := (HasPrefix_underscore s).mp h
  have key : ∃ r, (removeExtension s).data = '_' :: r := by
    rcases indexByte_spec '.' s.data with ⟨_, h2⟩ | ⟨pre, post, h1, h2, _⟩
    · rw [removeExtension_of_no_dot s h2]
      exact ⟨rest, hs⟩
    · rw [removeExtension_of_dot s pre post h1 h2]
      cases pre with
      | nil =>
        rw [hs] at h1
        simp at h1
      | cons x pre =>
        rw [hs] at h1
        simp only [List.cons_append, List.cons.injEq] at h1
        exact ⟨pre, by rw [h1.1]⟩
  obtain ⟨r, hr⟩ := key
  refine ⟨(HasPrefix_underscore _).mpr ⟨r, hr⟩, ?_, ?_⟩
  · intro h0
    rw [h0] at hr
    cases hr
  · intro h0
    rw [h0] at hr
    have : ("yield" : String).data = ['y', 'i', 'e', 'l', 'd'] := rfl
    rw [this] at hr
    simp at hr

/-! ### The last element of a relative path -/

theorem splitSep_ne_nil (l : List Char) : splitSep l ≠ [] := by
  induction l with
  | nil => simp [splitSep]
  | cons c cs ih =>
    unfold splitSep
    split
    · simp
    · split <;> simp

theorem splitSep_append_sep (a b : List Char) :
    splitSep (a ++ '/' :: b) = splitSep a ++ splitSep b := by
  induction a with
  | nil => simp [splitSep]
  | cons c cs ih =>
    by_cases hc : c = '/'
    · simp [splitSep, hc, ih]
    · simp only [List.cons_append, splitSep, hc, if_false]
      have ih1 : splitSep (cs.append ('/' :: b)) = splitSep cs ++ splitSep b := ih
      rw [ih1]
      cases hs : splitSep cs with
      | nil => exact absurd hs (splitSep_ne_nil cs)
      | cons e es => simp

theorem splitSep_no_sep (e : List Char) (h : '/' ∉ e) : splitSep e = [e] := by
  induction e with
  | nil => rfl
  | cons c cs ih =>
    simp only [List.mem_cons, not_or] at h
    have hc : c ≠ '/' := fun hc => h.1 hc.symm
    simp [splitSep, hc, ih h.2]

theorem splitSep_slashes (z : List Char) (h : ∀ c ∈ z, c = '/') :
    ∀ x ∈ splitSep z, x = [] := by
  induction z with
  | nil => simp [splitSep]
  | cons c cs ih =>
    have hc : c = '/' := h c (List.mem_cons_self _ _)
    intro x hx
    simp only [splitSep, hc, if_true, List.mem_cons] at hx
    rcases hx with rfl | hx
    · rfl
    · exact ih (fun c hc => h c (List.mem_cons_of_mem _ hc)) x hx

theorem foldl_cleanStep_empties (r : Bool) (Z : List (List Char)) (h : ∀ x ∈ Z, x = []) :
    ∀ out, Z.foldl (cleanStep r) out = out := by
  induction Z with
  | nil => intro out; rfl
  | cons x xs ih =>
    intro out
    have hx : x = [] := h x (List.mem_cons_self _ _)
    simp only [List.foldl_cons, hx, cleanStep, true_or, if_true]
    exact ih (fun y hy => h y (List.mem_cons_of_mem _ hy)) out

theorem joinSep_concat (l : List (List Char)) (e : List Char) :
    EndsWithElem e (joinSep (l ++ [e])) := by
  induction l with
  | nil => exact ⟨[], by simp [joinSep], Or.inl rfl⟩
  | cons x xs ih =>
    obtain ⟨y, hy, _⟩ := ih
    cases hxs : xs ++ [e] with
    | nil => simp at hxs
    | cons z zs =>
      rw [List.cons_append, hxs]
      simp only [joinSep]
      rw [← hxs, hy]
      rcases List.eq_nil_or_concat y with h0 | ⟨d, c, hd⟩
      · exact ⟨x ++ ['/'], by simp [h0], Or.inr ⟨x, rfl⟩⟩
      · refine ⟨x ++ '/' :: y, by simp, Or.inr ?_⟩
        rename_i hyb
        rcases hyb with h0 | ⟨d1, hd1⟩
        · exact ⟨x, by simp [h0]⟩
        · exact ⟨x ++ '/' :: d1, by simp [hd1]⟩

theorem EndsWithElem.base (e l : List Char) (h : EndsWithElem e l) (he : e ≠ [])
    (hsep : '/' ∉ e) : Base ⟨l⟩ = ⟨e⟩ := by
  obtain ⟨y, rfl, hy⟩ := h
  rcases hy with rfl | ⟨d, rfl⟩
  · obtain ⟨g, c, rfl⟩ : ∃ g c, e = g ++ [c] := by
      rcases List.eq_nil_or_concat e with h | ⟨g, c, h⟩
      · exact absurd h he
      · exact ⟨g, c, by simpa using h⟩
    have hc : c ≠ '/' := fun hc => hsep (by simp [hc])
    have hne : (⟨[] ++ (g ++ [c])⟩ : String) ≠ "" := by
      intro h
      have := congrArg String.data h
      simp at this
    have hstrip : stripTrailingSep ([] ++ (g ++ [c])) = g ++ [c] := by
      simp [stripTrailingSep, hc]
    have hlast : lastElem (g ++ [c]) = g ++ [c] := by
      unfold lastElem
      rw [List.takeWhile_eq_self_iff.mpr]
      · simp
      · intro a ha
        have : a ≠ '/' := fun hs => hsep (hs ▸ List.mem_reverse.mp ha)
        simpa using this
    simp only [Base, hne, if_false, hstrip, hlast]
    simp
  · have := Base_last_elem d e he hsep
    simpa using this

theorem EndsWithElem.after_sep (e q r : List Char) (h : EndsWithElem e (q ++ '/' :: r))
    (hsep : '/' ∉ e) : EndsWithElem e r := by
  obtain ⟨y, hy, hyb⟩ := h
  have hy1 : (q ++ ['/']) ++ r = y ++ e := by simpa using hy
  rcases List.append_eq_append_iff.mp hy1 with ⟨a, h1, h2⟩ | ⟨c, h1, h2⟩
  · refine ⟨a, h2, ?_⟩
    rcases List.eq_nil_or_concat a with h0 | ⟨a1, x, ha⟩
    · exact Or.inl h0
    · right
      rcases hyb with h0 | ⟨d, hd⟩
      · rw [h0] at h1
        simp at h1
      · rw [hd, ha] at h1
        have h3 : d ++ ['/'] = (q ++ ['/'] ++ a1) ++ [x] := by simpa using h1
        have := List.append_inj_right' h3 rfl
        simp only [List.cons.injEq, and_true] at this
        exact ⟨a1, by rw [ha, this]; simp⟩
  · rcases List.eq_nil_or_concat c with h0 | ⟨c1, x, hc⟩
    · subst h0
      exact ⟨[], by simpa using h2.symm, Or.inl rfl⟩
    · exfalso
      rw [hc] at h1 h2
      have h3 : q ++ ['/'] = (y ++ c1) ++ [x] := by simpa using h1
      have := List.append_inj_right' h3 rfl
      simp only [List.cons.injEq, and_true] at this
      apply hsep
      rw [h2, this]
      simp

theorem EndsWithElem.prepend (e x l : List Char) (h : EndsWithElem e l) :
    EndsWithElem e (x ++ '/' :: l) := by
  obtain ⟨y, rfl, hy⟩ := h
  refine ⟨x ++ '/' :: y, by simp, Or.inr ?_⟩
  rcases hy with rfl | ⟨d, rfl⟩
  · exact ⟨x, rfl⟩
  · exact ⟨x ++ '/' :: d, by simp⟩

theorem dropWhile_head (q : Char → Bool) (l : List Char) :
    l.dropWhile q = [] ∨ ∃ a t, l.dropWhile q = a :: t ∧ q a = false := by
  induction l with
  | nil => exact Or.inl rfl
  | cons a t ih =>
    by_cases ha : q a = true
    · simpa [List.dropWhile, ha] using ih
    · right
      exact ⟨a, t, by simp [List.dropWhile, ha], by simpa using ha⟩

/-- A path whose base name begins with `_` is that base name, preceded by nothing or by
something that ends with a separator, and followed by separators only. -/
theorem Base_underscore_decomp (p : List Char) (h : HasPrefix (Base ⟨p⟩) "_" = true) :
    ∃ x e z, p = x ++ e ++ z ∧ (x = [] ∨ ∃ d, x = d ++ ['/']) ∧ (∃ r, e = '_' :: r) ∧
      '/' ∉ e ∧ (∀ c ∈ z, c = '/') ∧ Base ⟨p⟩ = ⟨e⟩ := by
  by_cases hp : (⟨p⟩ : String) = ""
  · rw [hp] at h
    exact absurd h (by decide)
  · by_cases hl : lastElem (stripTrailingSep p) = []
    · have hB : Base ⟨p⟩ = "/" := by simp [Base, hp, hl]
      rw [hB] at h
      exact absurd h (by decide)
    · have hB : Base ⟨p⟩ = ⟨lastElem (stripTrailingSep p)⟩ := by simp [Base, hp, hl]
      have hz : p = stripTrailingSep p ++ (p.reverse.takeWhile (· = '/')).reverse := by
        unfold stripTrailingSep
        rw [← List.reverse_append, List.takeWhile_append_dropWhile, List.reverse_reverse]
      have hs : stripTrailingSep p =
          ((stripTrailingSep p).reverse.dropWhile (· ≠ '/')).reverse ++
            lastElem (stripTrailingSep p) := by
        unfold lastElem
        rw [← List.reverse_append, List.takeWhile_append_dropWhile, List.reverse_reverse]
      refine ⟨((stripTrailingSep p).reverse.dropWhile (· ≠ '/')).reverse,
        lastElem (stripTrailingSep p), (p.reverse.takeWhile (· = '/')).reverse, ?_, ?_, ?_, ?_,
        ?_, hB⟩
      · rw [← hs]
        exact hz
      · rcases dropWhile_head (· ≠ '/') (stripTrailingSep p).reverse with h0 | ⟨a, t, h1, h2⟩
        · left
          rw [h0]
          rfl
        · right
          have ha : a = '/' := by simpa using h2
          exact ⟨t.reverse, by rw [h1, ha]; simp⟩
      · rw [hB] at h
        exact (HasPrefix_underscore _).mp h
      · intro hm
        have := List.mem_takeWhile_imp (List.mem_reverse.mp hm)
        simp at this
      · intro c hc
        have := List.mem_takeWhile_imp (List.mem_reverse.mp hc)
        simpa using this

theorem cleanStep_underscore (r : Bool) (out : List (List Char)) (e t : List Char)
    (he : e = '_' :: t) : cleanStep r out e = e :: out := by
  subst he
  simp [cleanStep]

theorem splitSep_decomp (x e z : List Char) (hx : x = [] ∨ ∃ d, x = d ++ ['/'])
    (hsep : '/' ∉ e) (hz : ∀ c ∈ z, c = '/') :
    ∃ A Z, splitSep (x ++ e ++ z) = A ++ e :: Z ∧ ∀ y ∈ Z, y = [] := by
  have h1 : ∃ A, splitSep (x ++ e) = A ++ [e] := by
    rcases hx with rfl | ⟨d, rfl⟩
    · exact ⟨[], by simp [splitSep_no_sep e hsep]⟩
    · refine ⟨splitSep d, ?_⟩
      have : d ++ ['/'] ++ e = d ++ '/' :: e := by simp
      rw [this, splitSep_append_sep, splitSep_no_sep e hsep]
  obtain ⟨A, hA⟩ := h1
  cases z with
  | nil => exact ⟨A, [], by simpa using hA, by simp⟩
  | cons c z1 =>
    have hc : c = '/' := hz c (List.mem_cons_self _ _)
    subst hc
    refine ⟨A, splitSep z1, ?_, splitSep_slashes z1 (fun c hc => hz c (List.mem_cons_of_mem _ hc))⟩
    rw [splitSep_append_sep, hA]
    simp

/-- Cleaning a path whose base name begins with `_` keeps that base name as the last
element. -/
theorem cleanChars_underscore (p : List Char) (h : HasPrefix (Base ⟨p⟩) "_" = true) :
    ∃ e, Base ⟨p⟩ = ⟨e⟩ ∧ e ≠ [] ∧ '/' ∉ e ∧ (∃ r, e = '_' :: r) ∧
      EndsWithElem e (cleanChars p) := by
  obtain ⟨x, e, z, hp, hx, ⟨t, he⟩, hsep, hz, hB⟩ := Base_underscore_decomp p h
  have hne : e ≠ [] := by rw [he]; simp
  refine ⟨e, hB, hne, hsep, ⟨t, he⟩, ?_⟩
  obtain ⟨A, Z, hA, hZ⟩ := splitSep_decomp x e z hx hsep hz
  have hpne : p ≠ [] := by
    rw [hp, he]
    simp
  have hfold : ∀ r : Bool, ((splitSep p).foldl (cleanStep r) []).reverse =
      (A.foldl (cleanStep r) []).reverse ++ [e] := by
    intro r
    rw [hp, hA, List.foldl_append, List.foldl_cons, cleanStep_underscore r _ e t he,
      foldl_cleanStep_empties r Z hZ]
    simp
  unfold cleanChars
  simp only [hpne, if_false]
  by_cases hr : p.head? = some '/'
  · simp only [hr, if_true]
    have hf := hfold true
    simp only [decide_True] at hf ⊢
    rw [hf]
    have := (joinSep_concat (List.foldl (cleanStep true) [] A).reverse e).prepend e []
    simpa using this
  · simp only [hr, if_false]
    have hf := hfold false
    simp only [decide_False] at hf ⊢
    rw [hf]
    simp only [List.append_eq_nil, List.cons_ne_self, and_false, if_false]
    exact joinSep_concat _ e

theorem relLoop_suffix : ∀ (fuel : Nat) (b t : List Char),
    (relLoop fuel b t).2.1 = t ∨ (relLoop fuel b t).2.1 = [] ∨
      ∃ q, t = q ++ '/' :: (relLoop fuel b t).2.1
  | 0, b, t => Or.inl rfl
  | fuel + 1, b, t => by
    unfold relLoop
    split
    · exact Or.inl rfl
    · simp only
      split
      · exact Or.inl rfl
      · have ih := relLoop_suffix fuel ((b.dropWhile (· ≠ '/')).drop 1)
          ((t.dropWhile (· ≠ '/')).drop 1)
        have ht : t = t.takeWhile (· ≠ '/') ++ t.dropWhile (· ≠ '/') :=
          (List.takeWhile_append_dropWhile _ t).symm
        rcases dropWhile_head (· ≠ '/') t with h0 | ⟨a, t1, h1, h2⟩
        · rw [h0] at ih ⊢
          simp only [List.drop_nil] at ih ⊢
          rcases ih with h | h | ⟨q, h⟩
          · exact Or.inr (Or.inl h)
          · exact Or.inr (Or.inl h)
          · simp at h
        · have ha : a = '/' := by simpa using h2
          subst ha
          rw [h1] at ih ht ⊢
          simp only [List.drop_succ_cons, List.drop_zero] at ih ⊢
          rcases ih with h | h | ⟨q, h⟩
          · right; right
            exact ⟨t.takeWhile (· ≠ '/'), by rw [h]; exact ht⟩
          · exact Or.inr (Or.inl h)
          · right; right
            refine ⟨t.takeWhile (· ≠ '/') ++ '/' :: q, ?_⟩
            rw [List.append_assoc, List.cons_append, ← h]
            exact ht

theorem relLoop_step_length (b : List Char) (hb : b ≠ []) :
    ((b.dropWhile (· ≠ '/')).drop 1).length < b.length := by
  have h1 : (b.dropWhile (· ≠ '/')).length ≤ b.length := by
    have := congrArg List.length (List.takeWhile_append_dropWhile (· ≠ '/') b)
    rw [List.length_append] at this
    omega
  have h2 : 0 < b.length := List.length_pos.mpr hb
  rw [List.length_drop]
  omega

/-- The loop of `Rel` ends within the fuel it is given: more fuel does not change its
result. -/
theorem relLoop_fuel : ∀ (n m : Nat) (b t : List Char), b.length < n → b.length < m →
    relLoop n b t = relLoop m b t
  | 0, _, _, _, hn, _ => absurd hn (Nat.not_lt_zero _)
  | _ + 1, 0, _, _, _, hm => absurd hm (Nat.not_lt_zero _)
  | n + 1, m + 1, b, t, hn, hm => by
    unfold relLoop
    by_cases h1 : b = [] ∨ t = []
    · rw [if_pos h1, if_pos h1]
    · rw [if_neg h1, if_neg h1]
      simp only
      by_cases h2 : t.takeWhile (· ≠ '/') ≠ b.takeWhile (· ≠ '/')
      · rw [if_pos h2, if_pos h2]
      · rw [if_neg h2, if_neg h2]
        have hb : b ≠ [] := fun h => h1 (Or.inl h)
        have hlen := relLoop_step_length b hb
        exact relLoop_fuel n m _ _ (by omega) (by omega)

theorem Base_dotDots (n : Nat) : Base ⟨dotDots n⟩ = ".." := by
  cases n with
  | zero => decide
  | succ n =>
    have : dotDots (n + 1) = dotDots n ++ '/' :: ['.', '.'] := rfl
    rw [this, Base_last_elem _ _ (by simp) (by decide)]

/-- The last element of the result of `Rel` for a target whose base name begins with `_`:
that base name, or `.` or `..` when nothing of the target is left. -/
theorem Rel_base (dir path rel : String) (h : Rel dir path = .ok rel)
    (hacc : HasPrefix (Base path) "_" = true) :
    Base rel = Base path ∨ Base rel = "." ∨ Base rel = ".." := by
  obtain ⟨e, hB, hne, hsep, _, hend⟩ := cleanChars_underscore path.data hacc
  have hB1 : Base path = ⟨e⟩ := hB
  have key : ∀ tr : List Char,
      (tr = cleanChars path.data ∨ tr = [] ∨ ∃ q, cleanChars path.data = q ++ '/' :: tr) →
      tr ≠ [] → EndsWithElem e tr := by
    intro tr htr hn
    rcases htr with h1 | h1 | ⟨q, h1⟩
    · rw [h1]; exact hend
    · exact absurd h1 hn
    · exact EndsWithElem.after_sep e q tr (h1 ▸ hend) hsep
  unfold Rel at h
  by_cases h1 : cleanChars path.data = cleanChars dir.data
  · rw [if_pos h1] at h
    cases h
    exact Or.inr (Or.inl (by decide))
  · rw [if_neg h1] at h
    generalize (if cleanChars dir.data = ['.'] then [] else cleanChars dir.data) = b at h
    by_cases h2 : (b.head? = some '/') ≠ ((cleanChars path.data).head? = some '/')
    · rw [if_pos h2] at h
      cases h
    · rw [if_neg h2] at h
      have hsuf := relLoop_suffix (b.length + 1) b (cleanChars path.data)
      generalize relLoop (b.length + 1) b (cleanChars path.data) = r at h hsuf
      rcases r with ⟨brest, trest, be⟩
      simp only at h hsuf
      by_cases h3 : be = ['.', '.']
      · rw [if_pos h3] at h
        cases h
      · rw [if_neg h3] at h
        by_cases h4 : brest ≠ []
        · rw [if_pos h4] at h
          by_cases h5 : trest ≠ []
          · rw [if_pos h5] at h
            cases h
            left
            rw [hB1]
            exact ((key trest hsuf h5).prepend e _).base e _ hne hsep
          · rw [if_neg h5] at h
            cases h
            exact Or.inr (Or.inr (Base_dotDots _))
        · rw [if_neg h4] at h
          cases h
          by_cases ht : trest = []
          · subst ht
            exact Or.inr (Or.inl (by decide))
          · left
            rw [hB1]
            exact (key trest hsuf ht).base e _ hne hsep

/-- The name under which the partials walk attaches an accepted entry begins with `_`,
or it is empty, the relative path ending in `.` or `..`; it is never `yield`. -/
theorem partial_name_cases (dir path rel : String) (h : Rel dir path = .ok rel)
    (hacc : HasPrefix (Base path) "_" = true) :
    (HasPrefix (removeExtension (Base rel)) "_" = true ∨
      (removeExtension (Base rel) = "" ∧ (Base rel = "." ∨ Base rel = ".."))) ∧
    removeExtension (Base rel) ≠ "yield" := by
  rcases Rel_base dir path rel h hacc with h1 | h1 | h1
  · have := removeExtension_underscore (Base rel) (h1 ▸ hacc)
    exact ⟨Or.inl this.1, this.2.2⟩
  · rw [h1]
    exact ⟨Or.inr ⟨by decide, Or.inl rfl⟩, by decide⟩
  · rw [h1]
    exact ⟨Or.inr ⟨by decide, Or.inr rfl⟩, by decide⟩

/-! ### `Load`: partials -/

theorem New_other_name (E : Engine F T D) (heap : Heap F T) (t : TemplateRef) (name : String)
    (h : name ≠ t.name) : t.New E heap name = (heap, t, ⟨t.ns, name, true⟩) := by
  unfold TemplateRef.New
  rw [if_neg (fun hc => h hc.2)]

/-- A successful call of the partials callback on an accepted entry whose computed name
is not the name of the layout: the trees of the file are added to the name space of the
layout, and nothing else changes. -/
theorem partialFn_ok_named (E : Engine F T D) (fs : FileSystem) (dir path : String)
    (err : Option String) (heap heap1 : Heap F T) (l l1 : TemplateRef)
    (h : partialFn E fs dir path (some ⟨false⟩) err (heap, l) = .ok (heap1, l1))
    (hp : HasPrefix (Base path) "_" = true)
    (hname : ∀ rel, Rel dir path = .ok rel → removeExtension (Base rel) ≠ l.name) :
    ∃ rel b top defs, Rel dir path = .ok rel ∧ fs.readFile path = .ok b ∧
      E.parse (funcsAt E heap l.ns) b = .ok (top, defs) ∧ l1 = l ∧
      heap1 = heap.set l.ns ⟨funcsAt E heap l.ns,
        addTree E (addTrees E (treesAt heap l.ns) defs) (removeExtension (Base rel)) top⟩ := by
  obtain ⟨rel, b, hr, hb, hq, hl⟩ := partialFn_ok_entry E fs dir path err _ _ h hp
  simp only [New_other_name E heap l _ (hname rel hr)] at hq hl
  obtain ⟨top, defs, hparse, hheap⟩ := Parse_ok E _ _ _ b hq
  exact ⟨rel, b, top, defs, hr, hb, hparse, hl, hheap⟩

theorem New_result (E : Engine F T D) (heap : Heap F T) (t : TemplateRef) (name : String) :
    (t.New E heap name).2.2 = ⟨t.ns, name, true⟩ ∧ ∃ ext, (t.New E heap name).1 = heap ++ ext := by
  unfold TemplateRef.New
  split
  · exact ⟨rfl, _, rfl⟩
  · exact ⟨rfl, [], (List.append_nil heap).symm⟩

theorem set_append_left (heap ext : Heap F T) (a : Nat) (v : NameSpace F T)
    (h : a < heap.length) : (heap ++ ext).set a v = heap.set a v ++ ext := by
  induction heap generalizing a with
  | nil => cases h
  | cons x xs ih =>
    cases a with
    | zero => rfl
    | succ a =>
      simp only [List.cons_append, List.set, List.cons.injEq, true_and]
      exact ih a (Nat.lt_of_succ_lt_succ h)

/-- Counterexample to claim C8 as stated: the partial at `sub/_item.tpl` below the
partials root `tpl/partials` is attached under the name `_item`, not `sub/_item`. -/
theorem Load_partial_name_drops_dirs :
    Rel "tpl/partials" "tpl/partials/sub/_item.tpl" = .ok "sub/_item.tpl" ∧
      Walk fsSmall "tpl/partials" (partialFn textEngine fsSmall "tpl")
          ([⟨(), [("", "L")]⟩], ⟨0, "", true⟩) =
        .ok ([⟨(), [("_item", "X"), ("", "L")]⟩], ⟨0, "", true⟩) ∧
      Load textEngine fsSmall "tpl" "tpl/partials" "layout.tpl" () =
        .returned (some tplsSmall) none ∧
      ∀ e ∈ tplsSmall, e.2.Lookup "sub/_item" = none ∧ e.2.Lookup "_item" = some "X" := by
  decide

/-- Claim C8, amended: for every non-directory entry with base name beginning with `_`
on which the partials callback succeeds, the name under which its parsed content is
attached to the layout is the last element of its path relative to `dir`, with
everything from the first `.` truncated: `New` is called on the layout with that name and
the file is parsed into the new template, so that, the layout being in the heap, its name
space afterwards has the trees of the file added, the content of the file under that
name (when that content is not empty, the sub-template of that name is that content).
The name contains no separator: it is the base name of the file truncated at its first
`.`, or the empty name when the relative path ends in `.` or `..`; for a relative path
`d/f` with `f` a non-empty element it is `removeExtension f`, and the directory part `d`
is not part of it. -/
theorem partial_name_is_base (E : Engine F T D) (fs : FileSystem) (dir path : String)
    (err : Option String) (s s1 : Heap F T × TemplateRef)
    (hacc : HasPrefix (Base path) "_" = true)
    (h : partialFn E fs dir path (some ⟨false⟩) err s = .ok s1) :
    ∃ rel b, Rel dir path = .ok rel ∧ fs.readFile path = .ok b ∧
      ((s.2.New E s.1 (removeExtension (Base rel))).2.2).Parse E
        (s.2.New E s.1 (removeExtension (Base rel))).1 b = .ok s1.1 ∧
      s1.2 = (s.2.New E s.1 (removeExtension (Base rel))).2.1 ∧
      (s.2.New E s.1 (removeExtension (Base rel))).2.2 =
        ⟨s.2.ns, removeExtension (Base rel), true⟩ ∧
      (s.2.ns < s.1.length →
        ∃ top defs, E.parse (funcsAt E s.1 s.2.ns) b = .ok (top, defs) ∧
          treesAt s1.1 s.2.ns =
            addTree E (addTrees E (treesAt s.1 s.2.ns) defs) (removeExtension (Base rel)) top ∧
          (E.isEmpty top = false →
            mapGet (treesAt s1.1 s.2.ns) (removeExtension (Base rel)) = some top)) ∧
      (removeExtension (Base rel) = removeExtension (Base path) ∨
        removeExtension (Base rel) = "") ∧
      '/' ∉ (removeExtension (Base rel)).data ∧
      (∀ d f : List Char, rel = ⟨d ++ '/' :: f⟩ → f ≠ [] → '/' ∉ f →
        removeExtension (Base rel) = removeExtension ⟨f⟩) := by
  obtain ⟨rel, b, hr, hb, hq, hl⟩ := partialFn_ok_entry E fs dir path err s s1 h hacc
  have hname : removeExtension (Base rel) = removeExtension (Base path) ∨
      removeExtension (Base rel) = "" := by
    rcases Rel_base dir path rel hr hacc with h1 | h1 | h1
    · exact Or.inl (by rw [h1])
    · exact Or.inr (by rw [h1]; decide)
    · exact Or.inr (by rw [h1]; decide)
  obtain ⟨hnew, ext, hext⟩ := New_result E s.1 s.2 (removeExtension (Base rel))
  refine ⟨rel, b, hr, hb, hq, hl, hnew, ?_, hname, ?_, ?_⟩
  · intro hlen
    obtain ⟨top, defs, hparse, hheap⟩ := Parse_ok E _ _ _ b hq
    rw [hnew, hext] at hparse hheap
    simp only at hparse hheap
    rw [funcsAt_append_left E s.1 ext s.2.ns hlen] at hparse hheap
    rw [treesAt_append_left s.1 ext s.2.ns hlen, set_append_left s.1 ext s.2.ns _ hlen] at hheap
    have htrees : treesAt s1.1 s.2.ns =
        addTree E (addTrees E (treesAt s.1 s.2.ns) defs) (removeExtension (Base rel)) top := by
      rw [hheap, treesAt_append_left _ ext s.2.ns (by rw [List.length_set]; exact hlen),
        treesAt_set_eq _ _ _ hlen]
    refine ⟨top, defs, hparse, htrees, ?_⟩
    intro hne
    rw [htrees, mapGet_addTree_eq,
      if_neg (fun hc => by rw [hne] at hc; exact absurd hc.2 (by simp))]
  · rcases hname with h1 | h1
    · rw [h1]
      obtain ⟨e, hB, _, hsep, _, _⟩ := cleanChars_underscore path.data hacc
      have hB1 : Base path = ⟨e⟩ := hB
      rw [hB1]
      rcases indexByte_spec '.' e with ⟨_, h2⟩ | ⟨pre, post, h3, h4, _⟩
      · rw [removeExtension_of_no_dot ⟨e⟩ h2]
        exact hsep
      · rw [removeExtension_of_dot ⟨e⟩ pre post h3 h4]
        intro hm
        exact hsep (by rw [h3]; simp [hm])
    · rw [h1]
      decide
  · intro d f hrel hf hsep
    rw [hrel, Base_last_elem d f hf hsep]

theorem partial_name_is_base_witness :
    HasPrefix (Base "tpl/partials/sub/_item.tpl") "_" = true ∧
      partialFn textEngine fsSmall "tpl" "tpl/partials/sub/_item.tpl" (some ⟨false⟩) none
          ([⟨(), [("", "L")]⟩], ⟨0, "", true⟩) =
        .ok ([⟨(), [("_item", "X"), ("", "L")]⟩], ⟨0, "", true⟩) ∧
      removeExtension (Base "partials/sub/_item.tpl") = removeExtension ⟨"_item.tpl".data⟩ := by
  obtain ⟨rel, _, hr, _, _, _, _, _, _, _, hdf⟩ :=
    partial_name_is_base textEngine fsSmall "tpl" "tpl/partials/sub/_item.tpl" none
      ([⟨(), [("", "L")]⟩], ⟨0, "", true⟩)
      ([⟨(), [("_item", "X"), ("", "L")]⟩], ⟨0, "", true⟩) (by decide) (by decide)
  have hr0 : Rel "tpl" "tpl/partials/sub/_item.tpl" = .ok "partials/sub/_item.tpl" := by decide
  rw [hr0] at hr
  cases hr
  exact ⟨by decide, by decide,
    hdf "partials/sub".data "_item.tpl".data rfl (by decide) (by decide)⟩

/-- Counterexample to claim C9 as stated: the page at `v1.0/page.tpl` below `tpl` gets
the name `v1`, which has neither the subdirectory segment `v1.0` nor the base name
`page`; nothing is stored under `v1.0/page`. -/
theorem Load_dotted_directory :
    Rel "tpl" "tpl/v1.0/page.tpl" = .ok "v1.0/page.tpl" ∧
      Load textEngine fsDotted "tpl" "parts" "layout.tpl" () =
        .returned (some [("v1", ⟨"yield", (), [("yield", "P"), ("", "L")]⟩)]) none ∧
      mapGet [("v1", (⟨"yield", (), [("yield", "P"), ("", "L")]⟩ : Template Unit String))]
        "v1.0/page" = none := by
  decide

/-- Claim C9, amended: for every page file on which the pages callback succeeds and whose
path relative to `dir` is `d/f`, the name under which the template is stored is that
relative path truncated at its first `.`; when the directory part `d` contains no `.`
this is `d`, with every subdirectory segment in order, followed by the separator and `f`
truncated at its first `.`. -/
theorem page_name_nested (E : Engine F T D) (fs : FileSystem) (dir layout path : String)
    (err : Option String) (L : TemplateRef) (heap heap1 : Heap F T)
    (tpls tpls1 : List (String × TemplateRef)) (d f : List Char)
    (hskip : ¬ (path = Join dir layout ∨ HasPrefix (Base path) "_" = true))
    (hrel : Rel dir path = .ok ⟨d ++ '/' :: f⟩)
    (h : pageFn E fs dir layout L path (some ⟨false⟩) err (heap, tpls) = .ok (heap1, tpls1)) :
    ∃ t, tpls1 = mapSet tpls (removeExtension ⟨d ++ '/' :: f⟩) t ∧
      mapGet tpls1 (removeExtension ⟨d ++ '/' :: f⟩) = some t ∧
      ('.' ∉ d →
        removeExtension ⟨d ++ '/' :: f⟩ = ⟨d ++ '/' :: (removeExtension ⟨f⟩).data⟩) := by
  obtain ⟨rel, _, _, _, _, hr, _, _, _, ht⟩ :=
    pageFn_ok_entry E fs dir layout path err L heap heap1 tpls tpls1 h hskip
  rw [hrel] at hr
  cases hr
  refine ⟨_, ht, ?_, removeExtension_nested d f⟩
  rw [ht, mapGet_mapSet]
  simp

theorem page_name_nested_witness :
    ¬ ("tpl/sub/page.tpl" = Join "tpl" "layout.tpl" ∨
        HasPrefix (Base "tpl/sub/page.tpl") "_" = true) ∧
      Rel "tpl" "tpl/sub/page.tpl" = .ok ⟨"sub".data ++ '/' :: "page.tpl".data⟩ ∧
      pageFn textEngine fsSmall "tpl" "layout.tpl" ⟨0, "", true⟩ "tpl/sub/page.tpl"
          (some ⟨false⟩) none ([⟨(), [("", "L")]⟩], []) =
        .ok ([⟨(), [("", "L")]⟩, ⟨(), [("yield", "P"), ("", "L")]⟩],
          [("sub/page", ⟨1, "yield", true⟩)]) ∧
      ∃ t, [("sub/page", (⟨1, "yield", true⟩ : TemplateRef))] =
          mapSet [] (removeExtension ⟨"sub".data ++ '/' :: "page.tpl".data⟩) t ∧
        mapGet [("sub/page", (⟨1, "yield", true⟩ : TemplateRef))]
          (removeExtension ⟨"sub".data ++ '/' :: "page.tpl".data⟩) = some t ∧
        ('.' ∉ "sub".data →
          removeExtension ⟨"sub".data ++ '/' :: "page.tpl".data⟩ =
            ⟨"sub".data ++ '/' :: (removeExtension ⟨"page.tpl".data⟩).data⟩) :=
  ⟨by decide, by decide, by decide,
    page_name_nested textEngine fsSmall "tpl" "layout.tpl" "tpl/sub/page.tpl" none
      ⟨0, "", true⟩ [⟨(), [("", "L")]⟩]
      [⟨(), [("", "L")]⟩, ⟨(), [("yield", "P"), ("", "L")]⟩] []
      [("sub/page", ⟨1, "yield", true⟩)]
      "sub".data "page.tpl".data (by decide) (by decide) (by decide)⟩

/-- The name under which the partials callback attaches an accepted entry begins with
`_`, or it is the empty name and the relative path ends in `.` or `..`; it is never
`yield`. When it begins with `_`, as it does when the relative path has the base name of
the path, the layout reference is left as it was, and the trees of the file are added to
its name space. -/
theorem partialFn_reserved (E : Engine F T D) (fs : FileSystem) (dir path : String)
    (err : Option String) (s s1 : Heap F T × TemplateRef)
    (hacc : HasPrefix (Base path) "_" = true) (hlen : s.2.ns < s.1.length)
    (hroot : s.2.name = "")
    (h : partialFn E fs dir path (some ⟨false⟩) err s = .ok s1) :
    ∃ rel, Rel dir path = .ok rel ∧
      (HasPrefix (removeExtension (Base rel)) "_" = true ∨
        (removeExtension (Base rel) = "" ∧ (Base rel = "." ∨ Base rel = ".."))) ∧
      removeExtension (Base rel) ≠ "yield" ∧
      (Base rel = Base path → HasPrefix (removeExtension (Base rel)) "_" = true) ∧
      (HasPrefix (removeExtension (Base rel)) "_" = true →
        s1.2 = s.2 ∧
        ∃ top defs, treesAt s1.1 s.2.ns =
          addTree E (addTrees E (treesAt s.1 s.2.ns) defs) (removeExtension (Base rel)) top) := by
  obtain ⟨rel, b, hr, hb, hq, hl⟩ := partialFn_ok_entry E fs dir path err s s1 h hacc
  obtain ⟨hc, hy⟩ := partial_name_cases dir path rel hr hacc
  refine ⟨rel, hr, hc, hy, ?_, ?_⟩
  · intro hbase
    exact (removeExtension_underscore (Base rel) (hbase ▸ hacc)).1
  · intro hu
    have hne : removeExtension (Base rel) ≠ s.2.name := by
      intro h0
      rw [hroot] at h0
      rw [h0] at hu
      exact absurd hu (by decide)
    rcases s with ⟨heap, l⟩
    rcases s1 with ⟨heap1, l1⟩
    obtain ⟨rel', _, top, defs, hr', _, _, hl1, hheap⟩ :=
      partialFn_ok_named E fs dir path err heap heap1 l l1 h hacc
        (fun r hrr => by
          rw [hr] at hrr
          cases hrr
          exact hne)
    rw [hr] at hr'
    cases hr'
    refine ⟨hl1, top, defs, ?_⟩
    simp only
    rw [hheap, treesAt_set_eq _ _ _ hlen]

/-! ### Walk errors -/

/-- Claim C1 fails on this input: the regular file `tpl/secret/page.tpl` lies under `dir`
and is not skipped, its computed name is `secret/page`, yet `Load` succeeds with a
mapping that has no such key, because the error of listing `tpl/secret` is dropped. -/
theorem Load_unlistable_dir_loses_page :
    Load textEngine fsLocked "tpl" "parts" "layout.tpl" () =
        .returned (some [("index", ⟨"yield", (), [("yield", "I"), ("", "L")]⟩)]) none ∧
      "tpl/secret/page.tpl" ∈ filesUnder "tpl" (fsLocked.tree "tpl") ∧
      ¬ ("tpl/secret/page.tpl" = Join "tpl" "layout.tpl" ∨
        HasPrefix (Base "tpl/secret/page.tpl") "_" = true) ∧
      (Rel "tpl" "tpl/secret/page.tpl").map removeExtension = .ok "secret/page" ∧
      mapGet [("index", (⟨"yield", (), [("yield", "I"), ("", "L")]⟩ : Template Unit String))]
        "secret/page" = none := by
  decide

/-- Claim C7 fails on these inputs: with the partials root `parts` and the directory
`tpl/secret` present but not listable, the walks report the listing errors to the
callbacks, and `Load` returns a mapping and a nil error; with a partials root or an
entry below `dir` that cannot be stat-ed, `Load` panics instead of returning an error. -/
theorem Load_walk_errors_not_returned :
    visits "parts" (fsLocked.tree "parts") =
        [⟨"parts", some ⟨true⟩, some "permission denied"⟩] ∧
      Load textEngine fsLocked "tpl" "parts" "layout.tpl" () =
        .returned (some [("index", ⟨"yield", (), [("yield", "I"), ("", "L")]⟩)]) none ∧
      visits "nowhere" (fsLocked.tree "nowhere") =
        [⟨"nowhere", none, some "no such file or directory"⟩] ∧
      Load textEngine fsLocked "tpl" "nowhere" "layout.tpl" () = .panicked ∧
      visits "tpl" (fsVanished.tree "tpl") =
        [⟨"tpl", some ⟨true⟩, none⟩, ⟨"tpl/gone.tpl", none, some "no such file or directory"⟩,
          ⟨"tpl/layout.tpl", some ⟨false⟩, none⟩] ∧
      Load textEngine fsVanished "tpl" "parts" "layout.tpl" () = .panicked := by
  decide

/-! ### Walked files -/

mutual
theorem visits_file_mem (path : String) :
    ∀ (n : Node) (v : Visit), v ∈ visits path n → v.info = some ⟨false⟩ →
      v.err = none ∧ v.path ∈ filesUnder path n
  | .file, v, hv, _ => by
    simp only [visits, List.mem_singleton] at hv
    subst hv
    simp [filesUnder]
  | .noStat e, v, hv, hi => by
    simp only [visits, List.mem_singleton] at hv
    subst hv
    simp at hi
  | .dir lerr ents, v, hv, hi => by
    simp only [visits, List.mem_cons] at hv
    rcases hv with rfl | hv
    · simp at hi
    · cases lerr with
      | some e => simp at hv
      | none =>
        simp only [Option.isSome_none, Bool.false_eq_true, if_false] at hv
        simpa [filesUnder] using visitsEntries_file_mem path ents v hv hi
theorem visitsEntries_file_mem (path : String) :
    ∀ (ents : Entries) (v : Visit), v ∈ visitsEntries path ents → v.info = some ⟨false⟩ →
      v.err = none ∧ v.path ∈ filesUnderEntries path ents
  | .nil, v, hv, _ => by simp [visitsEntries] at hv
  | .cons name n rest, v, hv, hi => by
    simp only [visitsEntries, List.mem_append] at hv
    simp only [filesUnderEntries, List.mem_append]
    rcases hv with hv | hv
    · exact ⟨(visits_file_mem (Join path name) n v hv hi).1,
        Or.inl (visits_file_mem (Join path name) n v hv hi).2⟩
    · exact ⟨(visitsEntries_file_mem path rest v hv hi).1,
        Or.inr (visitsEntries_file_mem path rest v hv hi).2⟩
end

mutual
theorem filesUnder_mem_visits (path : String) :
    ∀ (n : Node) (p : String), Listable n → p ∈ filesUnder path n →
      (⟨p, some ⟨false⟩, none⟩ : Visit) ∈ visits path n
  | .file, p, _, hp => by
    simp only [filesUnder, List.mem_singleton] at hp
    subst hp
    simp [visits]
  | .noStat e, p, _, hp => by simp [filesUnder] at hp
  | .dir lerr ents, p, hl, hp => by
    simp only [Listable] at hl
    simp only [filesUnder] at hp
    simp only [visits, hl.1, Option.isSome_none, Bool.false_eq_true, if_false, List.mem_cons]
    exact Or.inr (filesUnderEntries_mem_visits path ents p hl.2 hp)
theorem filesUnderEntries_mem_visits (path : String) :
    ∀ (ents : Entries) (p : String), ListableEntries ents → p ∈ filesUnderEntries path ents →
      (⟨p, some ⟨false⟩, none⟩ : Visit) ∈ visitsEntries path ents
  | .nil, p, _, hp => by simp [filesUnderEntries] at hp
  | .cons name n rest, p, hl, hp => by
    simp only [ListableEntries] at hl
    simp only [filesUnderEntries, List.mem_append] at hp
    simp only [visitsEntries, List.mem_append]
    rcases hp with hp | hp
    · exact Or.inl (filesUnder_mem_visits (Join path name) n p hl.1 hp)
    · exact Or.inr (filesUnderEntries_mem_visits path rest p hl.2 hp)
end

/-! ### `Load`: keys and errors -/

/-- When every directory below `dir` can be listed, the keys of the mapping that a
successful `Load` returns are exactly the names `removeExtension rel` of the non-skipped
non-directory entries under `dir`; without that assumption every key still is such a
name. -/
theorem Load_keys_of_listable (E : Engine F T D) (fs : FileSystem)
    (dir partialDir layout : String) (funcs : F) (m : Templates F T)
    (h : Load E fs dir partialDir layout funcs = .returned (some m) none) :
    (∀ k t, mapGet m k = some t →
      ∃ p ∈ filesUnder dir (fs.tree dir),
        ¬ (p = Join dir layout ∨ HasPrefix (Base p) "_" = true) ∧
        ∃ rel, Rel dir p = .ok rel ∧ removeExtension rel = k) ∧
    (Listable (fs.tree dir) →
      ∀ p ∈ filesUnder dir (fs.tree dir),
        ¬ (p = Join dir layout ∨ HasPrefix (Base p) "_" = true) →
        ∃ rel t, Rel dir p = .ok rel ∧ mapGet m (removeExtension rel) = some t) := by
  obtain ⟨_, _, heapL, L, heap3, tpls, _, _, _, hLlen, _, hwG, hm⟩ :=
    Load_returned E fs dir partialDir layout funcs m h
  have K := pageFn_keyed E fs dir layout L (funcsAt E heapL L.ns) (cloneTrees heapL L)
  have hI0 : (∀ k r, mapGet ([] : List (String × TemplateRef)) k = some r → r.ns < heapL.length) ∧
      L.ns < heapL.length ∧ funcsAt E heapL L.ns = funcsAt E heapL L.ns ∧
      cloneTrees heapL L = cloneTrees heapL L :=
    ⟨fun k r hk => by simp [mapGet] at hk, hLlen, rfl, rfl⟩
  rw [Walk_eq_runVisits] at hwG
  constructor
  · intro k t hget
    have hget1 : (mapGet tpls k).map (TemplateRef.deref E heap3) = some t := by
      rw [← mapGet_map, ← hm]
      exact hget
    rcases K.run_cases k t _ (heapL, []) (heap3, tpls) hI0 hwG hget1 with
      ⟨h0, _⟩ | ⟨pre, v, post, hsplit, hE, _⟩
    · simp [mapGet] at h0
    · obtain ⟨hinfo, hskip, rel, _, _, _, hr, hname, _⟩ := hE
      have hmem : v ∈ visits dir (fs.tree dir) := by
        rw [hsplit]
        simp
      exact ⟨v.path, (visits_file_mem dir _ v hmem hinfo).2, hskip, rel, hr, hname.symm⟩
  · intro hl p hp hskip
    have hmem := filesUnder_mem_visits dir (fs.tree dir) p hl hp
    obtain ⟨⟨hp2, tp2⟩, ⟨hp3, tp3⟩, hI2, hcall⟩ :=
      K.run_called _ (heapL, []) (heap3, tpls) hI0 hwG _ hmem
    obtain ⟨rel, b, top, defs, _, hr, hb, hq, _, _⟩ :=
      pageFn_ok_entry E fs dir layout p none L hp2 hp3 tp2 tp3 hcall hskip
    rw [hI2.2.2.1] at hq
    have hent : PageEnt E fs dir layout (funcsAt E heapL L.ns) (cloneTrees heapL L)
        ⟨p, some ⟨false⟩, none⟩ (removeExtension rel)
        ⟨"yield", funcsAt E heapL L.ns,
          addTree E (addTrees E (cloneTrees heapL L) defs) "yield" top⟩ :=
      ⟨rfl, hskip, rel, b, top, defs, hr, rfl, hb, hq, rfl⟩
    obtain ⟨pre, v, post, hsplit, ⟨t, hv⟩, hlast⟩ :=
      exists_last (fun u => ∃ t, PageEnt E fs dir layout (funcsAt E heapL L.ns)
          (cloneTrees heapL L) u (removeExtension rel) t)
        (visits dir (fs.tree dir)) ⟨_, hmem, _, hent⟩
    have hfin := K.run_last _ t v post pre (heapL, []) (heap3, tpls) hI0 (hsplit ▸ hwG) hv
      (fun u hu t1 hE => hlast u hu ⟨t1, hE⟩)
    refine ⟨rel, t, hr, ?_⟩
    rw [hm, mapGet_map]
    exact hfin

/-- Whenever `Load` returns a non-nil error the mapping is nil, and whenever it returns a
mapping the error is nil; an unreadable layout file makes it return an error. -/
theorem Load_error_or_mapping (E : Engine F T D) (fs : FileSystem)
    (dir partialDir layout : String) (funcs : F) :
    (∀ r e, Load E fs dir partialDir layout funcs = .returned r (some e) → r = none) ∧
    (∀ m e, Load E fs dir partialDir layout funcs = .returned (some m) e → e = none) ∧
    (∀ e, fs.readFile (Join dir layout) = .error e →
      Load E fs dir partialDir layout funcs =
        .returned none (some ("Could not load layout: " ++ e))) := by
  refine ⟨?_, ?_, ?_⟩
  · intro r e h
    unfold Load at h
    repeat' split at h
    all_goals (cases h <;> rfl)
  · intro m e h
    unfold Load at h
    repeat' split at h
    all_goals (cases h <;> rfl)
  · intro e h
    simp [Load, h]

/-- A successful `Load` has read and parsed every non-skipped non-directory entry that
the pages walk visits: when such a read fails, `Load` does not return a mapping. -/
theorem Load_reads_every_page (E : Engine F T D) (fs : FileSystem)
    (dir partialDir layout : String) (funcs : F) (m : Templates F T)
    (h : Load E fs dir partialDir layout funcs = .returned (some m) none) :
    ∀ v ∈ visits dir (fs.tree dir), v.info = some ⟨false⟩ →
      ¬ (v.path = Join dir layout ∨ HasPrefix (Base v.path) "_" = true) →
      ∃ b f top defs, fs.readFile v.path = .ok b ∧ E.parse f b = .ok (top, defs) := by
  obtain ⟨_, _, heapL, L, heap3, tpls, _, _, _, hLlen, _, hwG, _⟩ :=
    Load_returned E fs dir partialDir layout funcs m h
  have K := pageFn_keyed E fs dir layout L (funcsAt E heapL L.ns) (cloneTrees heapL L)
  have hI0 : (∀ k r, mapGet ([] : List (String × TemplateRef)) k = some r → r.ns < heapL.length) ∧
      L.ns < heapL.length ∧ funcsAt E heapL L.ns = funcsAt E heapL L.ns ∧
      cloneTrees heapL L = cloneTrees heapL L :=
    ⟨fun k r hk => by simp [mapGet] at hk, hLlen, rfl, rfl⟩
  rw [Walk_eq_runVisits] at hwG
  intro v hv hi hs
  obtain ⟨⟨hp2, tp2⟩, ⟨hp3, tp3⟩, _, hcall⟩ :=
    K.run_called _ (heapL, []) (heap3, tpls) hI0 hwG v hv
  rw [hi] at hcall
  obtain ⟨_, b, top, defs, _, _, hb, hq, _, _⟩ :=
    pageFn_ok_entry E fs dir layout v.path v.err L hp2 hp3 tp2 tp3 hcall hs
  exact ⟨b, _, top, defs, hb, hq⟩

end Tpl
